import Mathlib

/-!
TreeVisualizer: the binary-tree-to-Graphviz builder.

A shallow embedding of `BinaryTreeVisualizer.h` (the class template
`TreeVisualizer::BinaryTreeVisualizer<Node>`) and of the node type of
`test_binary_tree_visualizer.cpp`.

* Node references (`Node*`) are addresses; memory is a partial map from
  addresses to node records.
* The Graphviz library is modelled by the part of its state the program
  drives: the open graph (graph-nodes in creation order, each with its
  `label` attribute; edges in creation order) and the log of library calls.
* A `std::string` handed to the library through `c_str()` arrives as a C
  string: its characters before the first NUL.
* The recursion of `_visualize` is bounded by a depth budget, so that cyclic
  structures (on which the C++ code does not return) are expressible.
-/

namespace TreeVisualizer

/-! ## Node references and memory -/

/-- A node reference `Node*`: the address it holds, as an unsigned machine
word. -/
abbrev Ptr := Nat

/-- The null reference. -/
def nullptr : Ptr := 0

/-- The node type of the test program: `struct Node { Node* left; Node* right;
std::string value; }`. -/
structure Node where
  left : Ptr
  right : Ptr
  value : String
deriving DecidableEq

/-- `std::string repr() const { return value; }`. -/
def Node.repr (n : Node) : String := n.value

/-- Memory as the builder reads it: the node record stored at each address
that holds a live `Node`. -/
abbrev Heap := Ptr → Option Node

/-- `reinterpret_cast<uintptr_t>(node)`: the address value of the reference. -/
def reinterpret_cast (node : Ptr) : Nat := node

/-- `std::to_string` on an unsigned integer: its decimal rendering. -/
def to_string (v : Nat) : String := Nat.repr v

/-- The NUL character, which ends a C string. -/
def NUL : Char := Char.ofNat 0

/-- `std::string::c_str()` as a C function reads it: the characters before the
first NUL. -/
def c_str (s : String) : String :=
  String.mk (s.data.takeWhile fun c => decide (c ≠ NUL))

/-! ## The Graphviz library, as far as the program drives it -/

/-- A graph-node of cgraph: its name (the key `agnode` looks up) and its
`label` attribute. -/
structure Agnode where
  name : String
  label : String
deriving DecidableEq

/-- A cgraph graph: graph-nodes and edges (tail name, head name), both in
creation order. The graph is opened with `Agdirected`, which is not strict, so
parallel edges are kept. -/
structure Agraph where
  nodes : List Agnode
  edges : List (String × String)
deriving DecidableEq

/-- A call into the Graphviz library. -/
inductive Call where
  | gvContext (gvc : Nat)
  | agopen (name : String) (directed : Bool) (strict : Bool)
  | agnode (name : String)
  | agset (node : String) (attr : String) (value : String)
  | agedge (tail : String) (head : String)
  | gvLayout (gvc : Nat) (g : Agraph) (engine : String)
  | gvRenderFilename (gvc : Nat) (g : Agraph) (format : String) (filename : String)
  | gvFreeLayout (gvc : Nat) (g : Agraph)
  | agclose (g : Agraph)
  | gvFreeContext (gvc : Nat)
deriving DecidableEq

/-- The library state one `visualize` call works on: the graph that the local
variable `graph` points to, and every library call made so far, in order. -/
structure Gv where
  graph : Agraph
  calls : List Call
deriving DecidableEq

/-- What the external engine answers: whether `agopen` yields a graph, and the
return codes of `gvLayout` and `gvRenderFilename` (`0` is success) for the
graph and strings they are given. -/
structure Engine where
  agopen : Bool
  gvLayout : Agraph → String → Int
  gvRenderFilename : Agraph → String → String → Int

/-- The default of the node attribute `label`, declared by `gvContext()`
(`agattr(NULL, AGNODE, "label", NODENAME_ESC)`) before any graph is opened. -/
def NODENAME_ESC : String := "\\N"

/-- `agopen("G", Agdirected, nullptr)`: a new, empty, directed, non-strict
graph. -/
def agopen (calls : List Call) (name : String) : Gv :=
  { graph := { nodes := [], edges := [] },
    calls := calls ++ [Call.agopen name true false] }

/-- `agnode(graph, name, 1)`: the graph-node called `name`, created with the
default label when the graph has none. The handle returned is the name. -/
def agnode (s : Gv) (name : String) : Gv × String :=
  if name ∈ s.graph.nodes.map Agnode.name then
    ({ s with calls := s.calls ++ [Call.agnode name] }, name)
  else
    ({ graph := { s.graph with nodes := s.graph.nodes ++ [{ name := name, label := NODENAME_ESC }] },
       calls := s.calls ++ [Call.agnode name] }, name)

/-- `agset(node, attr, value)`: sets a declared attribute of the graph-node;
`label` is the only node attribute declared. The return code is not the
program's concern: it discards it. -/
def agset (s : Gv) (node : String) (attr : String) (value : String) : Gv :=
  { graph :=
      { s.graph with
        nodes := s.graph.nodes.map fun nd =>
          if nd.name = node ∧ attr = "label" then { nd with label := value } else nd },
    calls := s.calls ++ [Call.agset node attr value] }

/-- `agedge(graph, tail, head, nullptr, 1)`: in a non-strict graph an unnamed
edge is always a new edge. -/
def agedge (s : Gv) (tail : String) (head : String) : Gv :=
  { graph := { s.graph with edges := s.graph.edges ++ [(tail, head)] },
    calls := s.calls ++ [Call.agedge tail head] }

/-- `gvLayout(gvc, graph, engine)`: logs the request and returns the engine's
code. -/
def gvLayout (eng : Engine) (s : Gv) (gvc : Nat) (engine : String) : Gv × Int :=
  ({ s with calls := s.calls ++ [Call.gvLayout gvc s.graph engine] },
   eng.gvLayout s.graph engine)

/-- `gvRenderFilename(gvc, graph, format, filename)`. -/
def gvRenderFilename (eng : Engine) (s : Gv) (gvc : Nat) (format : String)
    (filename : String) : Gv × Int :=
  ({ s with calls := s.calls ++ [Call.gvRenderFilename gvc s.graph format filename] },
   eng.gvRenderFilename s.graph format filename)

/-- `gvFreeLayout(gvc, graph)`. -/
def gvFreeLayout (s : Gv) (gvc : Nat) : Gv :=
  { s with calls := s.calls ++ [Call.gvFreeLayout gvc s.graph] }

/-- `agclose(graph)`. -/
def agclose (s : Gv) : List Call :=
  s.calls ++ [Call.agclose s.graph]

/-! ## The program -/

/-- Ways a run leaves defined behaviour or exceeds the depth budget. -/
inductive Fault where
  | depth
  | badPointer
  | nullGraph
deriving DecidableEq

/-- `BinaryTreeVisualizer::_visualize(graph, node)`. The first argument bounds
the depth of nested calls on non-null nodes. -/
def _visualize (mem : Heap) (fuel : Nat) (graph : Gv) (node : Ptr) : Except Fault Gv :=
  if node = nullptr then Except.ok graph
  else
    match fuel with
    | 0 => Except.error Fault.depth
    | fuel + 1 =>
      let node_id := to_string (reinterpret_cast node)
      let graph_node := agnode graph (c_str node_id)
      match mem node with
      | none => Except.error Fault.badPointer
      | some n =>
        let g1 := agset graph_node.1 graph_node.2 "label" (c_str n.repr)
        let afterLeft :=
          if n.left ≠ nullptr then
            let left_node_id := to_string (reinterpret_cast n.left)
            let left_child_node := agnode g1 (c_str left_node_id)
            _visualize mem fuel (agedge left_child_node.1 graph_node.2 left_child_node.2) n.left
          else Except.ok g1
        match afterLeft with
        | Except.error e => Except.error e
        | Except.ok g2 =>
          if n.right ≠ nullptr then
            let right_node_id := to_string (reinterpret_cast n.right)
            let right_child_node := agnode g2 (c_str right_node_id)
            _visualize mem fuel (agedge right_child_node.1 graph_node.2 right_child_node.2) n.right
          else Except.ok g2

/-- The class `BinaryTreeVisualizer<Node>`: its one field. -/
structure BinaryTreeVisualizer where
  gvc : Nat

/-- The constructor: `gvc = gvContext();` where `ctx` is the context the
engine hands out. -/
def BinaryTreeVisualizer.new (calls : List Call) (ctx : Nat) :
    BinaryTreeVisualizer × List Call :=
  ({ gvc := ctx }, calls ++ [Call.gvContext ctx])

/-- The destructor: `gvFreeContext(gvc);`. -/
def BinaryTreeVisualizer.delete (self : BinaryTreeVisualizer) (calls : List Call) :
    List Call :=
  calls ++ [Call.gvFreeContext self.gvc]

/-- `BinaryTreeVisualizer::visualize(root, output_file_format, output_filename)`.
An omitted argument is `none` and takes the declared default. The function is
`void`: the caller gets `()` back, next to the extended call log. A graph
pointer that `agopen` left null is dereferenced by the calls that follow. -/
def BinaryTreeVisualizer.visualize (self : BinaryTreeVisualizer) (mem : Heap) (fuel : Nat)
    (eng : Engine) (calls : List Call) (root : Ptr)
    (output_file_format : Option String) (output_filename : Option String) :
    Except Fault (Unit × List Call) :=
  let format := output_file_format.getD "svg"
  let filename := output_filename.getD "binary_tree.svg"
  if eng.agopen = false then Except.error Fault.nullGraph
  else
    let graph := agopen calls "G"
    match _visualize mem fuel graph root with
    | Except.error e => Except.error e
    | Except.ok g1 =>
      let g2 := (gvLayout eng g1 self.gvc "dot").1
      let g3 := (gvRenderFilename eng g2 self.gvc format filename).1
      let g4 := gvFreeLayout g3 self.gvc
      Except.ok ((), agclose g4)

/-! ## The test program's tree -/

/-- The tree `main` builds, at addresses 16, 32, ..., 112. -/
def testHeap : Heap := fun p =>
  if p = 16 then some { left := 32, right := 48, value := "root" }
  else if p = 32 then some { left := 64, right := 80, value := "left" }
  else if p = 48 then some { left := 96, right := 112, value := "right" }
  else if p = 64 then some { left := 0, right := 0, value := "left.left" }
  else if p = 80 then some { left := 0, right := 0, value := "left.right" }
  else if p = 96 then some { left := 0, right := 0, value := "right.left" }
  else if p = 112 then some { left := 0, right := 0, value := "right.right" }
  else none

/-- The graph state a builder run starts from: nothing in the graph, nothing
logged. -/
def emptyGv : Gv := { graph := { nodes := [], edges := [] }, calls := [] }

/-! ## Finite acyclic structures and their unfolding -/

/-- The unfolding of a left/right structure from a node reference: the node's
address and `repr()`, and the unfoldings of what `left` and `right` point to.
A node reachable along several paths occurs once for each path. -/
inductive Tree where
  | nil
  | node (addr : Ptr) (value : String) (l : Tree) (r : Tree)
deriving DecidableEq

/-- The reference an unfolding starts from. -/
def Tree.root : Tree → Ptr
  | Tree.nil => nullptr
  | Tree.node a _ _ _ => a

/-- The unfolding `t` is what memory holds from `t.root` on. A reference has
such an unfolding exactly when the structure reachable from it is finite,
acyclic and made of live nodes. -/
def Tree.inMem (mem : Heap) : Tree → Prop
  | Tree.nil => True
  | Tree.node a v l r =>
    a ≠ nullptr ∧ mem a = some { left := l.root, right := r.root, value := v } ∧
      l.inMem mem ∧ r.inMem mem

/-- Number of nodes on the longest root path. -/
def Tree.height : Tree → Nat
  | Tree.nil => 0
  | Tree.node _ _ l r => max l.height r.height + 1

/-- The addresses in pre-order: one entry per root path of the structure. -/
def Tree.addrs : Tree → List Ptr
  | Tree.nil => []
  | Tree.node a _ l r => a :: (l.addrs ++ r.addrs)

/-- The identifier the builder computes for a node reference. -/
abbrev idOf (p : Ptr) : String := to_string (reinterpret_cast p)

/-- The builder by recursion on the unfolding. -/
def build : Tree → Gv → Gv
  | Tree.nil, s => s
  | Tree.node a v l r, s =>
    let s1 := agset (agnode s (idOf a)).1 (idOf a) "label" (c_str v)
    let s2 := if l.root = nullptr then s1
      else build l (agedge (agnode s1 (idOf l.root)).1 (idOf a) (idOf l.root))
    if r.root = nullptr then s2
    else build r (agedge (agnode s2 (idOf r.root)).1 (idOf a) (idOf r.root))

/-- The edges a run adds, in order. -/
def edgesOf : Tree → List (String × String)
  | Tree.nil => []
  | Tree.node a _ l r =>
    (if l.root = nullptr then [] else (idOf a, idOf l.root) :: edgesOf l) ++
      (if r.root = nullptr then [] else (idOf a, idOf r.root) :: edgesOf r)

/-- The cgraph calls a run makes, in order. -/
def opsOf : Tree → List Call
  | Tree.nil => []
  | Tree.node a v l r =>
    [Call.agnode (idOf a), Call.agset (idOf a) "label" (c_str v)] ++
      (if l.root = nullptr then []
        else [Call.agnode (idOf l.root), Call.agedge (idOf a) (idOf l.root)] ++ opsOf l) ++
      (if r.root = nullptr then []
        else [Call.agnode (idOf r.root), Call.agedge (idOf a) (idOf r.root)] ++ opsOf r)

/-- The names `agnode` is asked for, in order. -/
def requests : Tree → List String
  | Tree.nil => []
  | Tree.node a _ l r =>
    idOf a :: ((if l.root = nullptr then [] else idOf l.root :: requests l) ++
      (if r.root = nullptr then [] else idOf r.root :: requests r))

/-- Find-or-create of a list of names, in order. -/
def addNames (names : List String) (reqs : List String) : List String :=
  reqs.foldl (fun acc x => if x ∈ acc then acc else acc ++ [x]) names

/-- The names of the graph-nodes, in creation order. -/
def Gv.names (s : Gv) : List String := s.graph.nodes.map Agnode.name

/-- Whether a call is one of the builder's: `agnode`, `agset`, `agedge`. -/
def Call.isBuilderOp : Call → Bool
  | Call.agnode _ => true
  | Call.agset _ _ _ => true
  | Call.agedge _ _ => true
  | _ => false

/-- How many of the child pointers of the node at `p` hold `c`. -/
def links (mem : Heap) (p : Ptr) (c : Ptr) : Nat :=
  match mem p with
  | none => 0
  | some n => (if n.left = c then 1 else 0) + (if n.right = c then 1 else 0)

/-- Reading a decimal rendering back, digit by digit. -/
def readDecimal (cs : List Char) (acc : Nat) : Nat :=
  cs.foldl (fun v c => 10 * v + (c.toNat - 48)) acc

/-- The child links of the structure: `c` is what the `left` or the `right`
pointer of the node at `p` holds, and is not null. -/
def IsLink (mem : Heap) (p c : Ptr) : Prop :=
  c ≠ nullptr ∧ ∃ n, mem p = some n ∧ (n.left = c ∨ n.right = c)

/-- The graph-node stands for a node of the unfolding and carries the C
string of its `repr()` as label. -/
def Labelled (mem : Heap) (t : Tree) (nd : Agnode) : Prop :=
  ∃ a ∈ t.addrs, nd.name = idOf a ∧ ∃ n, mem a = some n ∧ nd.label = c_str n.repr

/-- The unfolding `u` sits at one of the positions of `t`. -/
def Tree.HasSub (u : Tree) : Tree → Prop
  | Tree.nil => False
  | Tree.node a v l r => u = Tree.node a v l r ∨ Tree.HasSub u l ∨ Tree.HasSub u r

/-! ## Concrete structures and observations -/

/-- The unfolding of the test program's tree. -/
def testTree : Tree :=
  Tree.node 16 "root"
    (Tree.node 32 "left" (Tree.node 64 "left.left" Tree.nil Tree.nil)
      (Tree.node 80 "left.right" Tree.nil Tree.nil))
    (Tree.node 48 "right" (Tree.node 96 "right.left" Tree.nil Tree.nil)
      (Tree.node 112 "right.right" Tree.nil Tree.nil))

/-- A single node without children, at address 16. -/
def singleHeap : Heap := fun p =>
  if p = 16 then some { left := 0, right := 0, value := "root" } else none

/-- The unfolding of the single node. -/
def singleTree : Tree := Tree.node 16 "root" Tree.nil Tree.nil

/-- An engine whose calls all succeed. -/
def okEngine : Engine :=
  { agopen := true, gvLayout := fun _ _ => 0, gvRenderFilename := fun _ _ _ => 0 }

/-- An engine that lays out, and renders `svg` only: any other format is an
error. -/
def svgOnlyEngine : Engine :=
  { agopen := true, gvLayout := fun _ _ => 0,
    gvRenderFilename := fun _ format _ => if format = "svg" then 0 else -1 }

/-- A single node whose `repr()` has a NUL in the middle. -/
def nulHeap : Heap := fun p =>
  if p = 16 then some { left := 0, right := 0, value := "ab\x00cd" } else none

/-- The unfolding of `nulHeap` from 16. -/
def nulTree : Tree := Tree.node 16 "ab\x00cd" Tree.nil Tree.nil

/-- The calls with which `visualize` ends, on the graph the builder left. -/
def closing (gvc : Nat) (g : Agraph) (format : String) (filename : String) : List Call :=
  [Call.gvLayout gvc g "dot", Call.gvRenderFilename gvc g format filename,
    Call.gvFreeLayout gvc g, Call.agclose g]

/-- How many of the two child pointers of the node at `p` are not null. -/
def nonNullPointers (mem : Heap) (p : Ptr) : Nat :=
  match mem p with
  | none => 0
  | some n => (if n.left ≠ nullptr then 1 else 0) + (if n.right ≠ nullptr then 1 else 0)

/-- A structure with a shared node that has a child: the root 16 has the
children 32 and 48, both of which have 64 as left child, and 64 has the left
child 80. -/
def sharedHeap : Heap := fun p =>
  if p = 16 then some { left := 32, right := 48, value := "r" }
  else if p = 32 then some { left := 64, right := 0, value := "a" }
  else if p = 48 then some { left := 64, right := 0, value := "b" }
  else if p = 64 then some { left := 80, right := 0, value := "s" }
  else if p = 80 then some { left := 0, right := 0, value := "c" }
  else none

/-- The unfolding of `sharedHeap` from 16: the node 64 and its child occur
twice. -/
def sharedTree : Tree :=
  Tree.node 16 "r"
    (Tree.node 32 "a" (Tree.node 64 "s" (Tree.node 80 "c" Tree.nil Tree.nil) Tree.nil) Tree.nil)
    (Tree.node 48 "b" (Tree.node 64 "s" (Tree.node 80 "c" Tree.nil Tree.nil) Tree.nil) Tree.nil)

/-- A structure in which the node 96 has exactly the two parents 64 and 80,
and the parent 64 is itself the child of both 32 and 48. -/
def nestedHeap : Heap := fun p =>
  if p = 16 then some { left := 32, right := 48, value := "r" }
  else if p = 32 then some { left := 64, right := 0, value := "q1" }
  else if p = 48 then some { left := 64, right := 80, value := "q2" }
  else if p = 64 then some { left := 96, right := 0, value := "p1" }
  else if p = 80 then some { left := 96, right := 0, value := "p2" }
  else if p = 96 then some { left := 0, right := 0, value := "s" }
  else none

/-- A structure in which the node 64 has exactly the two parents 32 and 48,
is the only shared node, and is both the left and the right child of 32. -/
def twiceHeap : Heap := fun p =>
  if p = 16 then some { left := 32, right := 48, value := "r" }
  else if p = 32 then some { left := 64, right := 64, value := "p1" }
  else if p = 48 then some { left := 64, right := 0, value := "p2" }
  else if p = 64 then some { left := 0, right := 0, value := "s" }
  else none

/-- The plain diamond: 16 has the children 32 and 48, each of which has 64 as
its left child. -/
def diamondHeap : Heap := fun p =>
  if p = 16 then some { left := 32, right := 48, value := "r" }
  else if p = 32 then some { left := 64, right := 0, value := "p1" }
  else if p = 48 then some { left := 64, right := 0, value := "p2" }
  else if p = 64 then some { left := 0, right := 0, value := "s" }
  else none

/-- The unfolding of the plain diamond. -/
def diamondTree : Tree :=
  Tree.node 16 "r"
    (Tree.node 32 "p1" (Tree.node 64 "s" Tree.nil Tree.nil) Tree.nil)
    (Tree.node 48 "p2" (Tree.node 64 "s" Tree.nil Tree.nil) Tree.nil)

/-- The parents of `s` among the given addresses. -/
def parentsOf (mem : Heap) (addrs : List Ptr) (s : Ptr) : List Ptr :=
  addrs.filter fun p => decide (0 < links mem p s)

/-- The edge list a builder run from the empty graph leaves, when it returns. -/
def edgesAfter (mem : Heap) (fuel : Nat) (root : Ptr) : Option (List (String × String)) :=
  (_visualize mem fuel emptyGv root).toOption.map fun g => g.graph.edges

/-- The graph-node names a builder run from the empty graph leaves, when it
returns. -/
def namesAfter (mem : Heap) (fuel : Nat) (root : Ptr) : Option (List String) :=
  (_visualize mem fuel emptyGv root).toOption.map fun g => g.names

/-- The calls `visualize` has made, when it returns. -/
def logged (r : Except Fault (Unit × List Call)) : Option (List Call) :=
  r.toOption.map Prod.snd

/-! ## The life of a converter -/

/-- The arguments of one `visualize` call: the root, and the format and file
name, `none` when omitted. -/
structure Request where
  root : Ptr
  output_file_format : Option String
  output_filename : Option String

/-- Successive `visualize` calls on one converter, in order. -/
def visualizeAll (self : BinaryTreeVisualizer) (mem : Heap) (fuel : Nat) (eng : Engine) :
    List Request → List Call → Except Fault (List Call)
  | [], calls => Except.ok calls
  | r :: rest, calls =>
    match self.visualize mem fuel eng calls r.root r.output_file_format r.output_filename with
    | Except.error e => Except.error e
    | Except.ok out => visualizeAll self mem fuel eng rest out.2

/-- The life of a converter as in `main`: the declaration runs the
constructor, `visualize` is called some number of times, and the destructor
runs at the end of the scope. -/
def lifetime (ctx : Nat) (mem : Heap) (fuel : Nat) (eng : Engine) (reqs : List Request) :
    Except Fault (List Call) :=
  let made := BinaryTreeVisualizer.new [] ctx
  match visualizeAll made.1 mem fuel eng reqs made.2 with
  | Except.error e => Except.error e
  | Except.ok calls => Except.ok (made.1.delete calls)

/-- The engine context a call is given, for the calls that take one without
acquiring or releasing it. -/
def Call.context : Call → Option Nat
  | Call.gvLayout gvc _ _ => some gvc
  | Call.gvRenderFilename gvc _ _ _ => some gvc
  | Call.gvFreeLayout gvc _ => some gvc
  | _ => none

/-- Whether the call acquires or releases an engine context. -/
def Call.isContextLifecycle : Call → Bool
  | Call.gvContext _ => true
  | Call.gvFreeContext _ => true
  | _ => false

/-- Whether the call is a layout request. -/
def Call.isLayout : Call → Bool
  | Call.gvLayout _ _ _ => true
  | _ => false

/-! ## Pre-order listings -/

/-- The nodes of the unfolding in pre-order, each with its `repr()`. -/
def Tree.pairs : Tree → List (Ptr × String)
  | Tree.nil => []
  | Tree.node a v l r => (a, v) :: (l.pairs ++ r.pairs)

/-- The graph-node that stands for a tree node: named by its identifier,
labelled with the C string of its `repr()`. -/
def graphNode (av : Ptr × String) : Agnode := { name := idOf av.1, label := c_str av.2 }

/-- The parent of `c` among the nodes at `addrs`: the first of them that holds
`c` in its `left` or `right` pointer. -/
def parentOf (mem : Heap) (addrs : List Ptr) (c : Ptr) : Ptr :=
  (addrs.find? fun p => decide (0 < links mem p c)).getD nullptr

/-! ## Reachability and cycles -/

/-- The node `q` is reachable from `p` along non-null child pointers of live
nodes, in zero or more steps. -/
inductive Reach (mem : Heap) : Ptr → Ptr → Prop where
  | refl (p : Ptr) : Reach mem p p
  | step (p c q : Ptr) : IsLink mem p c → Reach mem c q → Reach mem p q

/-- A cycle is reachable from the non-null reference `root`: some node
reachable from it reaches itself in one or more steps. -/
def HasCycle (mem : Heap) (root : Ptr) : Prop :=
  root ≠ nullptr ∧ ∃ p c, Reach mem root p ∧ IsLink mem p c ∧ Reach mem c p

/-- A node whose `left` pointer is the node itself. -/
def loopHeap : Heap := fun p =>
  if p = 16 then some { left := 16, right := 0, value := "x" } else none

/-- A root with a leaf as left child and, as right child, a node whose right
child points back to the root. -/
def backHeap : Heap := fun p =>
  if p = 16 then some { left := 32, right := 48, value := "r" }
  else if p = 32 then some { left := 0, right := 0, value := "a" }
  else if p = 48 then some { left := 0, right := 16, value := "b" }
  else none

/-! ## The tree unfolding of a structure, laid out as a tree -/

/-- The unfolding with every address replaced through `f`: same shape, same
labels. -/
def Tree.mapAddr (f : Ptr → Ptr) : Tree → Tree
  | Tree.nil => Tree.nil
  | Tree.node a v l r => Tree.node (f a) v (l.mapAddr f) (r.mapAddr f)

/-- A copy of the unfolding in which the nodes are at the consecutive
addresses `k`, `k + 1`, ... in pre-order: every position is a node of its
own. -/
def Tree.number : Tree → Nat → Tree
  | Tree.nil, _ => Tree.nil
  | Tree.node _ v l r, k =>
    Tree.node k v (l.number (k + 1)) (r.number (k + 1 + l.addrs.length))

/-- The memory that holds exactly the nodes of a tree. -/
def Tree.asHeap : Tree → Heap
  | Tree.nil => fun _ => none
  | Tree.node a v l r => fun p =>
    if p = a then some { left := l.root, right := r.root, value := v }
    else match l.asHeap p with
      | some n => some n
      | none => r.asHeap p

/-- The node of the structure of which the node at address `j` of
`t.number 1` is a copy. -/
def originalOf (t : Tree) (j : Ptr) : Ptr := t.addrs.getD (j - 1) nullptr

/-- The identifier of the original, from the identifier of the copy. -/
def renameId (f : Ptr → Ptr) (s : String) : String := idOf (f (readDecimal s.data 0))

/-- A builder call with its graph-node names renamed. -/
def Call.rename (ren : String → String) : Call → Call
  | Call.agnode x => Call.agnode (ren x)
  | Call.agset x a v => Call.agset (ren x) a v
  | Call.agedge x y => Call.agedge (ren x) (ren y)
  | c => c

/-- Whether the call sets an attribute. -/
def Call.isAgset : Call → Bool
  | Call.agset _ _ _ => true
  | _ => false

/-- Whether the call adds an edge. -/
def Call.isAgedge : Call → Bool
  | Call.agedge _ _ => true
  | _ => false

/-- Where a path of child choices (`false` for left, `true` for right) leads
from `p`; the null reference when it leaves the structure. -/
def follow (mem : Heap) : Ptr → List Bool → Ptr
  | p, [] => p
  | p, d :: ds =>
    if p = nullptr then nullptr
    else match mem p with
      | none => nullptr
      | some n => follow mem (if d then n.right else n.left) ds

/-- The paths from `p` that end in a node, the empty path included, down to
the given depth. -/
def rootPaths (mem : Heap) : Nat → Ptr → List (List Bool)
  | 0, _ => []
  | fuel + 1, p =>
    if p = nullptr then []
    else match mem p with
      | none => []
      | some n =>
        [] :: ((rootPaths mem fuel n.left).map (fun ds => false :: ds) ++
          (rootPaths mem fuel n.right).map (fun ds => true :: ds))

/-- The paths of an unfolding: one per position. -/
def Tree.paths : Tree → List (List Bool)
  | Tree.nil => []
  | Tree.node _ _ l r =>
    [] :: (l.paths.map (fun ds => false :: ds) ++ r.paths.map (fun ds => true :: ds))

/-- The tree layout of `sharedHeap`: seven nodes at 1, ..., 7. -/
def sharedAsTree : Tree :=
  Tree.node 1 "r"
    (Tree.node 2 "a" (Tree.node 3 "s" (Tree.node 4 "c" Tree.nil Tree.nil) Tree.nil) Tree.nil)
    (Tree.node 5 "b" (Tree.node 6 "s" (Tree.node 7 "c" Tree.nil Tree.nil) Tree.nil) Tree.nil)

/-! ## Renaming a graph -/

/-- A graph-node with its name renamed and its label kept. -/
def Agnode.rename (ren : String → String) (nd : Agnode) : Agnode :=
  { name := ren nd.name, label := nd.label }

/-- The address change that turns the order of the test tree's addresses
around. -/
def mirrorAddr (a : Ptr) : Ptr := 1000 - a

/-! ## Paths along edges -/

/-- There is a path from `x` to `y` along the edges, each followed from tail
to head. -/
inductive EdgePath (edges : List (String × String)) : String → String → Prop where
  | refl (x : String) : EdgePath edges x x
  | step (x y z : String) : EdgePath edges x y → (y, z) ∈ edges → EdgePath edges x z

/-! # Theorems -/

/-! ## Decimal identifiers -/

theorem digitChar_toNat (k : Nat) (hk : k < 10) : (Nat.digitChar k).toNat - 48 = k := by
  interval_cases k <;> rfl

theorem readDecimal_toDigitsCore (fuel : Nat) :
    ∀ (n : Nat) (ds : List Char), n < fuel →
      readDecimal (Nat.toDigitsCore 10 fuel n ds) 0 = readDecimal ds n := by
  induction fuel with
  | zero => intro n ds h; omega
  | succ f ih =>
    intro n ds h
    have hmod : n % 10 < 10 := Nat.mod_lt _ (by decide)
    unfold Nat.toDigitsCore
    by_cases h0 : n / 10 = 0
    · have hn : n % 10 = n := by omega
      have e : (Nat.digitChar (n % 10)).toNat - 48 = n := by rw [digitChar_toNat _ hmod, hn]
      simp [h0, readDecimal, e]
    · have hlt : n / 10 < f := by omega
      simp only [h0, if_false]
      rw [ih (n / 10) _ hlt]
      have hn : 10 * (n / 10) + n % 10 = n := Nat.div_add_mod n 10
      simp [readDecimal, digitChar_toNat _ hmod, hn]

theorem readDecimal_to_string (v : Nat) : readDecimal (to_string v).data 0 = v := by
  simp only [to_string, Nat.repr, Nat.toDigits, List.asString]
  exact readDecimal_toDigitsCore (v + 1) v [] (Nat.lt_succ_self v)

theorem to_string_injective : Function.Injective to_string := by
  intro a b h
  have := congrArg (fun s => readDecimal s.data 0) h
  simpa [readDecimal_to_string] using this

theorem idOf_injective : Function.Injective idOf := by
  intro a b h
  exact to_string_injective h

theorem idOf_eq_iff (a b : Ptr) : idOf a = idOf b ↔ a = b :=
  idOf_injective.eq_iff

theorem c_str_of_no_nul (s : String) (h : ∀ c ∈ s.data, c ≠ NUL) : c_str s = s := by
  have e : (s.data.takeWhile fun c => decide (c ≠ NUL)) = s.data := by
    rw [List.takeWhile_eq_self_iff]
    intro c hc
    simpa using h c hc
  simp only [c_str, e]

theorem digitChar_ne_nul (k : Nat) (hk : k < 10) : Nat.digitChar k ≠ NUL := by
  interval_cases k <;> decide

theorem toDigitsCore_no_nul (fuel : Nat) : ∀ (n : Nat) (ds : List Char),
    (∀ c ∈ ds, c ≠ NUL) → ∀ c ∈ Nat.toDigitsCore 10 fuel n ds, c ≠ NUL := by
  induction fuel with
  | zero => intro n ds h c hc; exact h c (by simpa [Nat.toDigitsCore] using hc)
  | succ f ih =>
    intro n ds h c hc
    have hd : ∀ c ∈ Nat.digitChar (n % 10) :: ds, c ≠ NUL := by
      intro c2 hc2
      rcases List.mem_cons.mp hc2 with rfl | h2
      · exact digitChar_ne_nul _ (Nat.mod_lt _ (by decide))
      · exact h c2 h2
    unfold Nat.toDigitsCore at hc
    by_cases h0 : n / 10 = 0
    · simp only [h0, if_true] at hc
      exact hd c hc
    · simp only [h0, if_false] at hc
      exact ih (n / 10) _ hd c hc

@[simp] theorem c_str_to_string (v : Nat) : c_str (to_string v) = to_string v := by
  apply c_str_of_no_nul
  intro c hc
  simp only [to_string, Nat.repr, Nat.toDigits, List.asString] at hc
  exact toDigitsCore_no_nul (v + 1) v [] (fun _ h => absurd h (List.not_mem_nil _)) c hc

/-! ## The library operations -/

@[simp] theorem agnode_snd (s : Gv) (x : String) : (agnode s x).2 = x := by
  unfold agnode; split <;> rfl

@[simp] theorem agnode_edges (s : Gv) (x : String) :
    (agnode s x).1.graph.edges = s.graph.edges := by
  unfold agnode; split <;> rfl

@[simp] theorem agnode_calls (s : Gv) (x : String) :
    (agnode s x).1.calls = s.calls ++ [Call.agnode x] := by
  unfold agnode; split <;> rfl

theorem agnode_nodes (s : Gv) (x : String) :
    (agnode s x).1.graph.nodes =
      if x ∈ s.names then s.graph.nodes
      else s.graph.nodes ++ [{ name := x, label := NODENAME_ESC }] := by
  unfold agnode Gv.names; split <;> rfl

theorem agnode_names (s : Gv) (x : String) :
    (agnode s x).1.names = if x ∈ s.names then s.names else s.names ++ [x] := by
  unfold Gv.names
  rw [agnode_nodes]
  unfold Gv.names
  split <;> simp

@[simp] theorem agset_edges (s : Gv) (x a v : String) :
    (agset s x a v).graph.edges = s.graph.edges := rfl

@[simp] theorem agset_calls (s : Gv) (x a v : String) :
    (agset s x a v).calls = s.calls ++ [Call.agset x a v] := rfl

@[simp] theorem agset_names (s : Gv) (x a v : String) : (agset s x a v).names = s.names := by
  unfold Gv.names agset
  simp only [List.map_map]
  apply List.map_congr_left
  intro nd _
  simp only [Function.comp]
  split <;> rfl

@[simp] theorem agedge_edges (s : Gv) (x y : String) :
    (agedge s x y).graph.edges = s.graph.edges ++ [(x, y)] := rfl

@[simp] theorem agedge_calls (s : Gv) (x y : String) :
    (agedge s x y).calls = s.calls ++ [Call.agedge x y] := rfl

@[simp] theorem agedge_nodes (s : Gv) (x y : String) :
    (agedge s x y).graph.nodes = s.graph.nodes := rfl

@[simp] theorem agedge_names (s : Gv) (x y : String) : (agedge s x y).names = s.names := rfl

/-! ## The builder on an unfolding -/

@[simp] theorem Tree.root_nil : Tree.nil.root = nullptr := rfl

@[simp] theorem Tree.root_node (a : Ptr) (v : String) (l r : Tree) :
    (Tree.node a v l r).root = a := rfl

theorem visualize_null (mem : Heap) (fuel : Nat) (s : Gv) :
    _visualize mem fuel s nullptr = Except.ok s := by
  cases fuel <;> simp [_visualize]

theorem visualize_succ (mem : Heap) (fuel : Nat) (s : Gv) (p : Ptr) (n : Node)
    (hp : p ≠ nullptr) (hm : mem p = some n) :
    _visualize mem (fuel + 1) s p =
      (match (if n.left ≠ nullptr then
          _visualize mem fuel (agedge (agnode (agset (agnode s (idOf p)).1 (idOf p) "label"
            (c_str n.repr)) (idOf n.left)).1 (idOf p) (idOf n.left)) n.left
        else Except.ok (agset (agnode s (idOf p)).1 (idOf p) "label" (c_str n.repr))) with
      | Except.error e => Except.error e
      | Except.ok g2 =>
        if n.right ≠ nullptr then
          _visualize mem fuel (agedge (agnode g2 (idOf n.right)).1 (idOf p) (idOf n.right)) n.right
        else Except.ok g2) := by
  simp only [_visualize, if_neg hp, hm, agnode_snd, c_str_to_string]

theorem visualize_eq_build (mem : Heap) :
    ∀ (t : Tree) (fuel : Nat) (s : Gv), t.inMem mem → t.height ≤ fuel →
      _visualize mem fuel s t.root = Except.ok (build t s) := by
  intro t
  induction t with
  | nil => intro fuel s _ _; simp [visualize_null, build]
  | node a v l r ihl ihr =>
    intro fuel s hin hh
    obtain ⟨ha, hm, hl, hr⟩ := hin
    cases fuel with
    | zero => simp [Tree.height] at hh
    | succ f =>
      have hlh : l.height ≤ f := by simp [Tree.height] at hh; omega
      have hrh : r.height ≤ f := by simp [Tree.height] at hh; omega
      rw [Tree.root_node, visualize_succ mem f s a _ ha hm]
      simp only [Node.repr, build]
      by_cases h1 : l.root = nullptr
      · by_cases h2 : r.root = nullptr
        · simp [h1, h2]
        · simp [h1, h2, ihr f _ hr hrh]
      · by_cases h2 : r.root = nullptr
        · simp [h1, h2, ihl f _ hl hlh]
        · simp [h1, h2, ihl f _ hl hlh, ihr f _ hr hrh]

theorem build_edges : ∀ (t : Tree) (s : Gv),
    (build t s).graph.edges = s.graph.edges ++ edgesOf t := by
  intro t
  induction t with
  | nil => intro s; simp [build, edgesOf]
  | node a v l r ihl ihr =>
    intro s
    simp only [build, edgesOf]
    by_cases h1 : l.root = nullptr <;> by_cases h2 : r.root = nullptr <;>
      simp [h1, h2, ihl, ihr]

theorem build_calls : ∀ (t : Tree) (s : Gv),
    (build t s).calls = s.calls ++ opsOf t := by
  intro t
  induction t with
  | nil => intro s; simp [build, opsOf]
  | node a v l r ihl ihr =>
    intro s
    simp only [build, opsOf]
    by_cases h1 : l.root = nullptr <;> by_cases h2 : r.root = nullptr <;>
      simp [h1, h2, ihl, ihr]

theorem opsOf_isBuilderOp : ∀ (t : Tree), ∀ c ∈ opsOf t, c.isBuilderOp = true := by
  intro t
  induction t with
  | nil => intro c hc; simp [opsOf] at hc
  | node a v l r ihl ihr =>
    intro c hc
    simp only [opsOf, List.mem_append] at hc
    rcases hc with (hc | hc) | hc
    · simp at hc; rcases hc with rfl | rfl <;> rfl
    · split at hc
      · simp at hc
      · simp at hc; rcases hc with rfl | rfl | hc
        · rfl
        · rfl
        · exact ihl c hc
    · split at hc
      · simp at hc
      · simp at hc; rcases hc with rfl | rfl | hc
        · rfl
        · rfl
        · exact ihr c hc

theorem build_names : ∀ (t : Tree) (s : Gv),
    (build t s).names = addNames s.names (requests t) := by
  intro t
  induction t with
  | nil => intro s; simp [build, requests, addNames]
  | node a v l r ihl ihr =>
    intro s
    simp only [build, requests]
    by_cases h1 : l.root = nullptr <;> by_cases h2 : r.root = nullptr <;>
      simp [h1, h2, ihl, ihr, addNames, agnode_names, List.foldl_append]

/-! ## Graph-nodes: names -/

theorem mem_addNames (reqs : List String) : ∀ (names : List String) (x : String),
    x ∈ addNames names reqs ↔ x ∈ names ∨ x ∈ reqs := by
  induction reqs with
  | nil => intro names x; simp [addNames]
  | cons y ys ih =>
    intro names x
    have h := ih (if y ∈ names then names else names ++ [y]) x
    simp only [addNames, List.foldl_cons] at h ⊢
    rw [h]
    by_cases hy : y ∈ names
    · simp only [hy, if_true, List.mem_cons]
      constructor
      · rintro (h | h)
        · exact Or.inl h
        · exact Or.inr (Or.inr h)
      · rintro (h | h | h)
        · exact Or.inl h
        · exact Or.inl (h ▸ hy)
        · exact Or.inr h
    · simp only [hy, if_false, List.mem_append, List.mem_singleton, List.mem_cons]
      tauto

theorem nodup_addNames (reqs : List String) : ∀ (names : List String),
    names.Nodup → (addNames names reqs).Nodup := by
  induction reqs with
  | nil => intro names h; simpa [addNames] using h
  | cons y ys ih =>
    intro names h
    simp only [addNames, List.foldl_cons]
    apply ih
    by_cases hy : y ∈ names
    · simpa [hy] using h
    · simp only [hy, if_false]
      exact List.Nodup.append h (List.nodup_singleton y) (by simpa using hy)

theorem Tree.eq_nil_of_root (mem : Heap) (t : Tree) (h : t.inMem mem)
    (h0 : t.root = nullptr) : t = Tree.nil := by
  cases t with
  | nil => rfl
  | node a v l r => exact absurd h0 h.1

theorem Tree.root_mem_addrs (t : Tree) (h0 : t.root ≠ nullptr) : t.root ∈ t.addrs := by
  cases t with
  | nil => exact absurd rfl h0
  | node a v l r => simp [Tree.addrs]

theorem Tree.addrs_eq_cons (t : Tree) (h0 : t.root ≠ nullptr) :
    t.addrs = t.root :: t.addrs.tail := by
  cases t with
  | nil => exact absurd rfl h0
  | node a v l r => simp [Tree.addrs]

theorem mem_requests (mem : Heap) : ∀ (t : Tree), t.inMem mem →
    ∀ x, x ∈ requests t ↔ x ∈ t.addrs.map idOf := by
  intro t
  induction t with
  | nil => intro _ x; simp [requests, Tree.addrs]
  | node a v l r ihl ihr =>
    intro hin x
    obtain ⟨_, _, hl, hr⟩ := hin
    have el : x ∈ (if l.root = nullptr then [] else idOf l.root :: requests l) ↔
        x ∈ l.addrs.map idOf := by
      by_cases h1 : l.root = nullptr
      · simp [h1, Tree.eq_nil_of_root mem l hl h1, Tree.addrs]
      · simp only [h1, if_false, List.mem_cons, ihl hl x]
        constructor
        · rintro (h | h)
          · exact h ▸ List.mem_map_of_mem idOf (Tree.root_mem_addrs l h1)
          · exact h
        · exact Or.inr
    have er : x ∈ (if r.root = nullptr then [] else idOf r.root :: requests r) ↔
        x ∈ r.addrs.map idOf := by
      by_cases h1 : r.root = nullptr
      · simp [h1, Tree.eq_nil_of_root mem r hr h1, Tree.addrs]
      · simp only [h1, if_false, List.mem_cons, ihr hr x]
        constructor
        · rintro (h | h)
          · exact h ▸ List.mem_map_of_mem idOf (Tree.root_mem_addrs r h1)
          · exact h
        · exact Or.inr
    simp only [requests, Tree.addrs, List.mem_cons, List.mem_append, List.map_cons,
      List.map_append, el, er]

theorem build_names_nodup (t : Tree) (s : Gv) (h : s.names.Nodup) :
    (build t s).names.Nodup := by
  rw [build_names]; exact nodup_addNames _ _ h

theorem mem_build_names (mem : Heap) (t : Tree) (hin : t.inMem mem) (s : Gv) (x : String) :
    x ∈ (build t s).names ↔ x ∈ s.names ∨ x ∈ t.addrs.map idOf := by
  rw [build_names, mem_addNames, mem_requests mem t hin]

/-! ## Edges -/

theorem edgesOf_heads (mem : Heap) : ∀ (t : Tree), t.inMem mem →
    (edgesOf t).map Prod.snd = t.addrs.tail.map idOf := by
  intro t
  induction t with
  | nil => intro _; simp [edgesOf, Tree.addrs]
  | node a v l r ihl ihr =>
    intro hin
    obtain ⟨_, _, hl, hr⟩ := hin
    have el : (if l.root = nullptr then [] else (idOf a, idOf l.root) :: edgesOf l).map Prod.snd
        = l.addrs.map idOf := by
      by_cases h1 : l.root = nullptr
      · simp [h1, Tree.eq_nil_of_root mem l hl h1, Tree.addrs]
      · simp only [h1, if_false, List.map_cons, ihl hl]
        rw [← List.map_cons, ← Tree.addrs_eq_cons l h1]
    have er : (if r.root = nullptr then [] else (idOf a, idOf r.root) :: edgesOf r).map Prod.snd
        = r.addrs.map idOf := by
      by_cases h1 : r.root = nullptr
      · simp [h1, Tree.eq_nil_of_root mem r hr h1, Tree.addrs]
      · simp only [h1, if_false, List.map_cons, ihr hr]
        rw [← List.map_cons, ← Tree.addrs_eq_cons r h1]
    simp only [edgesOf, Tree.addrs, List.map_append, el, er, List.tail_cons]

theorem edgesOf_length (mem : Heap) (t : Tree) (hin : t.inMem mem) :
    (edgesOf t).length = t.addrs.length - 1 := by
  have h := congrArg List.length (edgesOf_heads mem t hin)
  simpa using h

theorem edgesOf_nodup (mem : Heap) (t : Tree) (hin : t.inMem mem) (hnd : t.addrs.Nodup) :
    (edgesOf t).Nodup := by
  apply List.Nodup.of_map Prod.snd
  rw [edgesOf_heads mem t hin]
  exact (hnd.sublist (List.tail_sublist _)).map idOf_injective

theorem mem_of_mem_addrs (mem : Heap) : ∀ (t : Tree), t.inMem mem → ∀ p ∈ t.addrs,
    p ≠ nullptr ∧ ∃ n, mem p = some n := by
  intro t
  induction t with
  | nil => intro _ p hp; simp [Tree.addrs] at hp
  | node a v l r ihl ihr =>
    intro hin p hp
    obtain ⟨ha, hm, hl, hr⟩ := hin
    simp only [Tree.addrs, List.mem_cons, List.mem_append] at hp
    rcases hp with rfl | hp | hp
    · exact ⟨ha, _, hm⟩
    · exact ihl hl p hp
    · exact ihr hr p hp

theorem mem_edgesOf (mem : Heap) : ∀ (t : Tree), t.inMem mem → ∀ e : String × String,
    e ∈ edgesOf t ↔ ∃ p c, p ∈ t.addrs ∧ IsLink mem p c ∧ e = (idOf p, idOf c) := by
  intro t
  induction t with
  | nil => intro _ e; simp [edgesOf, Tree.addrs]
  | node a v l r ihl ihr =>
    intro hin e
    obtain ⟨ha, hm, hl, hr⟩ := hin
    have el : e ∈ (if l.root = nullptr then [] else (idOf a, idOf l.root) :: edgesOf l) ↔
        (l.root ≠ nullptr ∧ e = (idOf a, idOf l.root)) ∨
          ∃ p c, p ∈ l.addrs ∧ IsLink mem p c ∧ e = (idOf p, idOf c) := by
      by_cases h1 : l.root = nullptr
      · simp [h1, Tree.eq_nil_of_root mem l hl h1, Tree.addrs]
      · simp [h1, ihl hl e]
    have er : e ∈ (if r.root = nullptr then [] else (idOf a, idOf r.root) :: edgesOf r) ↔
        (r.root ≠ nullptr ∧ e = (idOf a, idOf r.root)) ∨
          ∃ p c, p ∈ r.addrs ∧ IsLink mem p c ∧ e = (idOf p, idOf c) := by
      by_cases h1 : r.root = nullptr
      · simp [h1, Tree.eq_nil_of_root mem r hr h1, Tree.addrs]
      · simp [h1, ihr hr e]
    simp only [edgesOf, List.mem_append, el, er, Tree.addrs, List.mem_cons]
    constructor
    · rintro ((⟨h1, rfl⟩ | ⟨p, c, hp, hl, rfl⟩) | (⟨h1, rfl⟩ | ⟨p, c, hp, hl, rfl⟩))
      · exact ⟨a, l.root, Or.inl rfl, ⟨h1, _, hm, Or.inl rfl⟩, rfl⟩
      · exact ⟨p, c, Or.inr (Or.inl hp), hl, rfl⟩
      · exact ⟨a, r.root, Or.inl rfl, ⟨h1, _, hm, Or.inr rfl⟩, rfl⟩
      · exact ⟨p, c, Or.inr (Or.inr hp), hl, rfl⟩
    · rintro ⟨p, c, hp | hp | hp, hl, rfl⟩
      · subst hp
        obtain ⟨hc, n, hn, hcn⟩ := hl
        rw [hm] at hn
        cases hn
        rcases hcn with h | h
        · simp only at h; subst h; exact Or.inl (Or.inl ⟨hc, rfl⟩)
        · simp only at h; subst h; exact Or.inr (Or.inl ⟨hc, rfl⟩)
      · exact Or.inl (Or.inr ⟨p, c, hp, hl, rfl⟩)
      · exact Or.inr (Or.inr ⟨p, c, hp, hl, rfl⟩)

/-! ## Graph-nodes: labels -/

theorem mem_agset_nodes (s : Gv) (x v : String) (nd : Agnode)
    (h : nd ∈ (agset s x "label" v).graph.nodes) :
    (nd.name = x ∧ nd.label = v) ∨ (nd ∈ s.graph.nodes ∧ nd.name ≠ x) := by
  simp only [agset, List.mem_map] at h
  obtain ⟨nd0, h0, rfl⟩ := h
  by_cases hx : nd0.name = x
  · left; simp [hx]
  · right; simp [hx, h0]

theorem mem_agnode_nodes (s : Gv) (x : String) (nd : Agnode)
    (h : nd ∈ (agnode s x).1.graph.nodes) : nd ∈ s.graph.nodes ∨ nd.name = x := by
  rw [agnode_nodes] at h
  split at h
  · exact Or.inl h
  · simp only [List.mem_append, List.mem_singleton] at h
    rcases h with h | h
    · exact Or.inl h
    · right; rw [h]

theorem build_labels (mem : Heap) : ∀ (t : Tree), t.inMem mem → ∀ (s : Gv) (nd : Agnode),
    nd ∈ (build t s).graph.nodes →
      Labelled mem t nd ∨ (nd ∈ s.graph.nodes ∧ nd.name ∉ t.addrs.map idOf) := by
  intro t
  induction t with
  | nil => intro _ s nd h; right; exact ⟨by simpa [build] using h, by simp [Tree.addrs]⟩
  | node a v l r ihl ihr =>
    intro hin s nd h
    obtain ⟨ha, hm, hl, hr⟩ := hin
    -- the state after the node itself has been created and labelled
    have step1 : ∀ nd, nd ∈ (agset (agnode s (idOf a)).1 (idOf a) "label" (c_str v)).graph.nodes →
        Labelled mem (Tree.node a v l r) nd ∨ (nd ∈ s.graph.nodes ∧ nd.name ≠ idOf a) := by
      intro nd h
      rcases mem_agset_nodes _ _ _ _ h with ⟨h1, h2⟩ | ⟨h1, h2⟩
      · left; exact ⟨a, by simp [Tree.addrs], h1, _, hm, by simpa [Node.repr] using h2⟩
      · right
        rcases mem_agnode_nodes _ _ _ h1 with h3 | h3
        · exact ⟨h3, h2⟩
        · exact absurd h3 h2
    have liftl : ∀ nd, Labelled mem l nd → Labelled mem (Tree.node a v l r) nd := by
      rintro nd ⟨b, hb, h⟩
      exact ⟨b, by simp [Tree.addrs, hb], h⟩
    have liftr : ∀ nd, Labelled mem r nd → Labelled mem (Tree.node a v l r) nd := by
      rintro nd ⟨b, hb, h⟩
      exact ⟨b, by simp [Tree.addrs, hb], h⟩
    -- the state after the left subtree
    have step2 : ∀ nd, nd ∈ (if l.root = nullptr then
          agset (agnode s (idOf a)).1 (idOf a) "label" (c_str v)
        else build l (agedge (agnode (agset (agnode s (idOf a)).1 (idOf a) "label" (c_str v))
          (idOf l.root)).1 (idOf a) (idOf l.root))).graph.nodes →
        Labelled mem (Tree.node a v l r) nd ∨
          (nd ∈ s.graph.nodes ∧ nd.name ≠ idOf a ∧ nd.name ∉ l.addrs.map idOf) := by
      intro nd h
      by_cases h1 : l.root = nullptr
      · simp only [h1, if_true] at h
        rcases step1 nd h with h2 | ⟨h2, h3⟩
        · exact Or.inl h2
        · right
          refine ⟨h2, h3, ?_⟩
          simp [Tree.eq_nil_of_root mem l hl h1, Tree.addrs]
      · simp only [h1, if_false] at h
        rcases ihl hl _ nd h with h2 | ⟨h2, h3⟩
        · exact Or.inl (liftl nd h2)
        · rw [agedge_nodes] at h2
          rcases mem_agnode_nodes _ _ _ h2 with h4 | h4
          · rcases step1 nd h4 with h5 | ⟨h5, h6⟩
            · exact Or.inl h5
            · exact Or.inr ⟨h5, h6, h3⟩
          · exfalso
            apply h3
            rw [h4]
            exact List.mem_map_of_mem idOf (Tree.root_mem_addrs l h1)
    simp only [build] at h
    by_cases h1 : r.root = nullptr
    · simp only [h1, if_true] at h
      rcases step2 nd h with h2 | ⟨h2, h3, h4⟩
      · exact Or.inl h2
      · right
        refine ⟨h2, ?_⟩
        simp only [Tree.addrs, List.map_cons, List.map_append, List.mem_cons, List.mem_append,
          not_or]
        refine ⟨h3, h4, ?_⟩
        simp [Tree.eq_nil_of_root mem r hr h1, Tree.addrs]
    · simp only [h1, if_false] at h
      rcases ihr hr _ nd h with h2 | ⟨h2, h3⟩
      · exact Or.inl (liftr nd h2)
      · rw [agedge_nodes] at h2
        rcases mem_agnode_nodes _ _ _ h2 with h4 | h4
        · rcases step2 nd h4 with h5 | ⟨h5, h6, h7⟩
          · exact Or.inl h5
          · right
            refine ⟨h5, ?_⟩
            simp only [Tree.addrs, List.map_cons, List.map_append, List.mem_cons,
              List.mem_append, not_or]
            exact ⟨h6, h7, h3⟩
        · exfalso
          apply h3
          rw [h4]
          exact List.mem_map_of_mem idOf (Tree.root_mem_addrs r h1)

/-! ## Parallel edges -/

theorem links_of_mem (mem : Heap) (p c : Ptr) (n : Node) (h : mem p = some n) :
    links mem p c = (if n.left = c then 1 else 0) + (if n.right = c then 1 else 0) := by
  simp [links, h]

theorem count_edgesOf (mem : Heap) (p c : Ptr) (hc : c ≠ nullptr) :
    ∀ (t : Tree), t.inMem mem →
      (edgesOf t).count (idOf p, idOf c) = t.addrs.count p * links mem p c := by
  intro t
  induction t with
  | nil => intro _; simp [edgesOf, Tree.addrs]
  | node a v l r ihl ihr =>
    intro hin
    obtain ⟨ha, hm, hl, hr⟩ := hin
    have el : (if l.root = nullptr then [] else (idOf a, idOf l.root) :: edgesOf l).count
        (idOf p, idOf c) =
        (if a = p ∧ l.root = c then 1 else 0) + l.addrs.count p * links mem p c := by
      by_cases h1 : l.root = nullptr
      · have hne : ¬ (a = p ∧ l.root = c) := fun h => hc (h.2 ▸ h1)
        rw [if_pos h1, if_neg hne, Tree.eq_nil_of_root mem l hl h1]
        simp [Tree.addrs]
      · simp only [h1, if_false, List.count_cons, ihl hl, beq_iff_eq, Prod.mk.injEq,
          idOf_eq_iff]
        omega
    have er : (if r.root = nullptr then [] else (idOf a, idOf r.root) :: edgesOf r).count
        (idOf p, idOf c) =
        (if a = p ∧ r.root = c then 1 else 0) + r.addrs.count p * links mem p c := by
      by_cases h1 : r.root = nullptr
      · have hne : ¬ (a = p ∧ r.root = c) := fun h => hc (h.2 ▸ h1)
        rw [if_pos h1, if_neg hne, Tree.eq_nil_of_root mem r hr h1]
        simp [Tree.addrs]
      · simp only [h1, if_false, List.count_cons, ihr hr, beq_iff_eq, Prod.mk.injEq,
          idOf_eq_iff]
        omega
    simp only [edgesOf, List.count_append, el, er, Tree.addrs, List.count_cons, beq_iff_eq]
    by_cases hap : a = p
    · subst hap
      simp only [true_and, if_true, links_of_mem mem a c _ hm]
      ring
    · simp only [hap, false_and, if_false]
      ring

/-! ## Positions of an unfolding -/

theorem Tree.inMem_unique (mem : Heap) : ∀ (t1 t2 : Tree), t1.inMem mem → t2.inMem mem →
    t1.root = t2.root → t1 = t2 := by
  intro t1
  induction t1 with
  | nil =>
    intro t2 _ h2 h
    exact (Tree.eq_nil_of_root mem t2 h2 h.symm).symm
  | node a v l r ihl ihr =>
    intro t2 h1 h2 h
    cases t2 with
    | nil => exact absurd h h1.1
    | node a2 v2 l2 r2 =>
      simp only [Tree.root_node] at h
      subst h
      obtain ⟨_, hm1, hl1, hr1⟩ := h1
      obtain ⟨_, hm2, hl2, hr2⟩ := h2
      rw [hm1] at hm2
      simp only [Option.some.injEq, Node.mk.injEq] at hm2
      obtain ⟨e1, e2, e3⟩ := hm2
      rw [ihl l2 hl1 hl2 e1, ihr r2 hr1 hr2 e2, e3]

theorem Tree.inMem_congr (mem1 mem2 : Heap) : ∀ (t : Tree),
    (∀ a ∈ t.addrs, mem2 a = mem1 a) → t.inMem mem1 → t.inMem mem2 := by
  intro t
  induction t with
  | nil => intro _ _; trivial
  | node a v l r ihl ihr =>
    intro hagree hin
    obtain ⟨ha, hm, hl, hr⟩ := hin
    refine ⟨ha, ?_, ihl ?_ hl, ihr ?_ hr⟩
    · rw [hagree a (by simp [Tree.addrs]), hm]
    · intro b hb; exact hagree b (by simp [Tree.addrs, hb])
    · intro b hb; exact hagree b (by simp [Tree.addrs, hb])

theorem Tree.hasSub_of_mem (mem : Heap) (p : Ptr) : ∀ (t : Tree), t.inMem mem → p ∈ t.addrs →
    ∃ v l r, Tree.HasSub (Tree.node p v l r) t ∧ (Tree.node p v l r).inMem mem := by
  intro t
  induction t with
  | nil => intro _ hp; simp [Tree.addrs] at hp
  | node a v l r ihl ihr =>
    intro hin hp
    simp only [Tree.addrs, List.mem_cons, List.mem_append] at hp
    rcases hp with rfl | hp | hp
    · exact ⟨v, l, r, Or.inl rfl, hin⟩
    · obtain ⟨v', l', r', h1, h2⟩ := ihl hin.2.2.1 hp
      exact ⟨v', l', r', Or.inr (Or.inl h1), h2⟩
    · obtain ⟨v', l', r', h1, h2⟩ := ihr hin.2.2.2 hp
      exact ⟨v', l', r', Or.inr (Or.inr h1), h2⟩

theorem Tree.root_ne_of_hasSub (mem : Heap) (u t : Tree) (hin : t.inMem mem)
    (h : Tree.HasSub u t) : t.root ≠ nullptr := by
  cases t with
  | nil => exact absurd h id
  | node a v l r => exact hin.1

theorem edgesOf_hasSub (mem : Heap) (u : Tree) : ∀ (t : Tree), t.inMem mem → Tree.HasSub u t →
    ∃ pre post, edgesOf t = pre ++ edgesOf u ++ post := by
  intro t
  induction t with
  | nil => intro _ h; exact absurd h id
  | node a v l r ihl ihr =>
    intro hin h
    obtain ⟨_, _, hl, hr⟩ := hin
    rcases h with rfl | h | h
    · exact ⟨[], [], by simp⟩
    · obtain ⟨pre, post, e⟩ := ihl hl h
      have h1 := Tree.root_ne_of_hasSub mem u l hl h
      refine ⟨(idOf a, idOf l.root) :: pre,
        post ++ (if r.root = nullptr then [] else (idOf a, idOf r.root) :: edgesOf r), ?_⟩
      simp [edgesOf, h1, e]
    · obtain ⟨pre, post, e⟩ := ihr hr h
      have h1 := Tree.root_ne_of_hasSub mem u r hr h
      refine ⟨(if l.root = nullptr then [] else (idOf a, idOf l.root) :: edgesOf l) ++
        (idOf a, idOf r.root) :: pre, post, ?_⟩
      simp [edgesOf, h1, e]

/-! ## Runs from an empty graph -/

theorem run_ok (mem : Heap) (t : Tree) (fuel : Nat) (s : Gv) (hin : t.inMem mem)
    (hf : t.height ≤ fuel) : _visualize mem fuel s t.root = Except.ok (build t s) :=
  visualize_eq_build mem t fuel s hin hf

theorem nodes_length_eq (mem : Heap) (t : Tree) (hin : t.inMem mem) (hnd : t.addrs.Nodup)
    (s : Gv) (hs : s.graph.nodes = []) :
    (build t s).graph.nodes.length = t.addrs.length := by
  have hn : s.names = [] := by simp [Gv.names, hs]
  have h1 : (build t s).names.Nodup := build_names_nodup t s (by simp [hn])
  have h2 : (t.addrs.map idOf).Nodup := hnd.map idOf_injective
  have h3 : (build t s).names.Perm (t.addrs.map idOf) := by
    rw [List.perm_ext_iff_of_nodup h1 h2]
    intro x
    rw [mem_build_names mem t hin, hn]
    simp
  have h4 := h3.length_eq
  simpa [Gv.names] using h4

/-- C1: on a finite binary tree without shared subtrees, the builder run on an
empty graph yields one graph-node per tree node, named by the node's
identifier, and one edge per parent-child link, each once; a null child gives
no graph-node and no edge; the node count is the size of the tree and the edge
count is one less. -/
theorem tree_graph_exact (mem : Heap) (t : Tree) (fuel : Nat)
    (hin : t.inMem mem) (hnd : t.addrs.Nodup) (hf : t.height ≤ fuel) :
    ∃ g, _visualize mem fuel emptyGv t.root = Except.ok g ∧
      g.names.Nodup ∧
      (∀ x, x ∈ g.names ↔ ∃ a ∈ t.addrs, x = idOf a) ∧
      g.graph.edges.Nodup ∧
      (∀ e, e ∈ g.graph.edges ↔
        ∃ p c, p ∈ t.addrs ∧ IsLink mem p c ∧ e = (idOf p, idOf c)) ∧
      idOf nullptr ∉ g.names ∧
      (∀ e ∈ g.graph.edges, e.1 ≠ idOf nullptr ∧ e.2 ≠ idOf nullptr) ∧
      g.graph.nodes.length = t.addrs.length ∧
      g.graph.edges.length = t.addrs.length - 1 := by
  have hnames : ∀ x, x ∈ (build t emptyGv).names ↔ ∃ a ∈ t.addrs, x = idOf a := by
    intro x
    rw [mem_build_names mem t hin]
    simp [emptyGv, Gv.names, eq_comm]
  have hedges : (build t emptyGv).graph.edges = edgesOf t := by
    rw [build_edges]; simp [emptyGv]
  refine ⟨build t emptyGv, run_ok mem t fuel _ hin hf, ?_, hnames, ?_, ?_, ?_, ?_, ?_, ?_⟩
  · exact build_names_nodup t _ (by simp [emptyGv, Gv.names])
  · rw [hedges]; exact edgesOf_nodup mem t hin hnd
  · intro e; rw [hedges]; exact mem_edgesOf mem t hin e
  · rw [hnames]
    rintro ⟨a, ha, h⟩
    exact (mem_of_mem_addrs mem t hin a ha).1 (idOf_injective h).symm
  · intro e he
    rw [hedges, mem_edgesOf mem t hin] at he
    obtain ⟨p, c, hp, hl, rfl⟩ := he
    exact ⟨fun h => (mem_of_mem_addrs mem t hin p hp).1 (idOf_injective h),
      fun h => hl.1 (idOf_injective h)⟩
  · exact nodes_length_eq mem t hin hnd _ rfl
  · rw [hedges]; exact edgesOf_length mem t hin

/-- C1, at the test program's seven-node tree (7 graph-nodes, 6 edges) and at
a single node (1 graph-node, 0 edges). -/
theorem tree_graph_exact_witness :
    (testTree.inMem testHeap ∧ testTree.addrs.Nodup ∧ testTree.height ≤ 3 ∧
      ∃ g, _visualize testHeap 3 emptyGv 16 = Except.ok g ∧
        g.graph.nodes.length = 7 ∧ g.graph.edges.length = 6) ∧
    (singleTree.inMem singleHeap ∧ singleTree.addrs.Nodup ∧ singleTree.height ≤ 1 ∧
      ∃ g, _visualize singleHeap 1 emptyGv 16 = Except.ok g ∧
        g.graph.nodes.length = 1 ∧ g.graph.edges.length = 0) := by
  refine ⟨⟨by simp [testTree, Tree.inMem, testHeap, nullptr], by decide, by decide, ?_⟩,
    ⟨by simp [singleTree, Tree.inMem, singleHeap, nullptr], by decide, by decide, ?_⟩⟩
  · obtain ⟨g, hg, _, _, _, _, _, _, hn, he⟩ :=
      tree_graph_exact testHeap testTree 3
        (by simp [testTree, Tree.inMem, testHeap, nullptr]) (by decide) (by decide)
    exact ⟨g, hg, hn, he⟩
  · obtain ⟨g, hg, _, _, _, _, _, _, hn, he⟩ :=
      tree_graph_exact singleHeap singleTree 1
        (by simp [singleTree, Tree.inMem, singleHeap, nullptr]) (by decide) (by decide)
    exact ⟨g, hg, hn, he⟩

/-! ## The top-level operation -/

theorem visualize_of_run (self : BinaryTreeVisualizer) (mem : Heap) (fuel : Nat) (eng : Engine)
    (calls : List Call) (root : Ptr) (fmt file : Option String) (s : Gv)
    (ho : eng.agopen = true)
    (hrun : _visualize mem fuel (agopen calls "G") root = Except.ok s) :
    self.visualize mem fuel eng calls root fmt file =
      Except.ok ((), s.calls ++
        closing self.gvc s.graph (fmt.getD "svg") (file.getD "binary_tree.svg")) := by
  simp [BinaryTreeVisualizer.visualize, ho, hrun, gvLayout, gvRenderFilename, gvFreeLayout,
    agclose, closing]

theorem build_labels_of_empty (mem : Heap) (t : Tree) (hin : t.inMem mem) (s : Gv)
    (hs : s.graph.nodes = []) : ∀ nd ∈ (build t s).graph.nodes, Labelled mem t nd := by
  intro nd h
  rcases build_labels mem t hin s nd h with h1 | ⟨h1, _⟩
  · exact h1
  · rw [hs] at h1; exact absurd h1 (List.not_mem_nil nd)

/-- C2, refuted as stated: the label is handed to `agset` as a C string, so a
node whose `repr()` is `ab`, NUL, `cd` gets the label `ab`. -/
theorem labels_are_repr_cex :
    nulTree.inMem nulHeap ∧
    (nulHeap 16).map Node.repr = some "ab\x00cd" ∧
    (_visualize nulHeap 1 (agopen [] "G") 16).toOption.map
      (fun s => s.graph.nodes.map fun nd => (nd.name, nd.label)) = some [("16", "ab")] ∧
    logged (BinaryTreeVisualizer.visualize { gvc := 1 } nulHeap 1 okEngine [] 16 none none) =
      some [Call.agopen "G" true false, Call.agnode "16", Call.agset "16" "label" "ab",
        Call.gvLayout 1 { nodes := [{ name := "16", label := "ab" }], edges := [] } "dot",
        Call.gvRenderFilename 1 { nodes := [{ name := "16", label := "ab" }], edges := [] }
          "svg" "binary_tree.svg",
        Call.gvFreeLayout 1 { nodes := [{ name := "16", label := "ab" }], edges := [] },
        Call.agclose { nodes := [{ name := "16", label := "ab" }], edges := [] }] ∧
    "ab" ≠ "ab\x00cd" := by
  refine ⟨by simp [nulTree, Tree.inMem, nulHeap, nullptr], by decide, by decide, by decide,
    by decide⟩

/-- C2, amended: for a finite acyclic structure, `visualize` hands the layout
engine a graph (opened by `agopen`, filled by the builder) in which every
graph-node is named by a node of the structure and has as its label the C
string of that node's `repr()`, the characters before its first NUL; this is
`repr()` itself whenever `repr()` has no NUL in it. -/
theorem labels_are_c_str_of_repr (self : BinaryTreeVisualizer) (mem : Heap) (t : Tree)
    (fuel : Nat) (eng : Engine) (calls : List Call) (fmt file : Option String)
    (hin : t.inMem mem) (hf : t.height ≤ fuel) (ho : eng.agopen = true) :
    ∃ s, _visualize mem fuel (agopen calls "G") t.root = Except.ok s ∧
      self.visualize mem fuel eng calls t.root fmt file =
        Except.ok ((), s.calls ++
          closing self.gvc s.graph (fmt.getD "svg") (file.getD "binary_tree.svg")) ∧
      ∀ nd ∈ s.graph.nodes,
        ∃ a ∈ t.addrs, nd.name = idOf a ∧ ∃ n, mem a = some n ∧
          nd.label = c_str n.repr ∧
          ((∀ c ∈ n.repr.data, c ≠ NUL) → nd.label = n.repr) := by
  have hrun := run_ok mem t fuel (agopen calls "G") hin hf
  refine ⟨_, hrun, visualize_of_run self mem fuel eng calls t.root fmt file _ ho hrun, ?_⟩
  intro nd hnd
  obtain ⟨a, ha, hname, n, hn, hlabel⟩ := build_labels_of_empty mem t hin _ rfl nd hnd
  exact ⟨a, ha, hname, n, hn, hlabel, fun h => by rw [hlabel, c_str_of_no_nul _ h]⟩

/-- C2 amended, at the test program's call
`visualize(root, "svg", "binary_tree_test.svg")`, where no label has a NUL:
the labels of the graph handed to the engine are the seven values. -/
theorem labels_are_c_str_of_repr_witness :
    testTree.inMem testHeap ∧ testTree.height ≤ 3 ∧ okEngine.agopen = true ∧
    ∃ s, _visualize testHeap 3 (agopen [] "G") 16 = Except.ok s ∧
      s.graph.nodes.map Agnode.label =
        ["root", "left", "left.left", "left.right", "right", "right.left", "right.right"] ∧
      ∀ nd ∈ s.graph.nodes,
        ∃ a ∈ testTree.addrs, nd.name = idOf a ∧ ∃ n, testHeap a = some n ∧
          nd.label = c_str n.repr ∧
          ((∀ c ∈ n.repr.data, c ≠ NUL) → nd.label = n.repr) := by
  refine ⟨by simp [testTree, Tree.inMem, testHeap, nullptr], by decide, rfl, ?_⟩
  obtain ⟨s, hs, _, hl⟩ := labels_are_c_str_of_repr { gvc := 1 } testHeap testTree 3 okEngine []
    (some "svg") (some "binary_tree_test.svg")
    (by simp [testTree, Tree.inMem, testHeap, nullptr]) (by decide) rfl
  refine ⟨s, hs, ?_, hl⟩
  have h2 : _visualize testHeap 3 (agopen [] "G") 16 = Except.ok s := hs
  have h3 : (_visualize testHeap 3 (agopen [] "G") 16).toOption.map
      (fun s => s.graph.nodes.map Agnode.label) =
      some ["root", "left", "left.left", "left.right", "right", "right.left", "right.right"] := by
    decide
  rw [h2] at h3
  simpa [Except.toOption] using h3

/-! ## Shared nodes -/

theorem nodes_length_dedup (mem : Heap) (t : Tree) (hin : t.inMem mem)
    (s : Gv) (hs : s.graph.nodes = []) :
    (build t s).graph.nodes.length = t.addrs.dedup.length := by
  have hn : s.names = [] := by simp [Gv.names, hs]
  have h1 : (build t s).names.Nodup := build_names_nodup t s (by simp [hn])
  have h2 : (t.addrs.dedup.map idOf).Nodup := (List.nodup_dedup _).map idOf_injective
  have h3 : (build t s).names.Perm (t.addrs.dedup.map idOf) := by
    rw [List.perm_ext_iff_of_nodup h1 h2]
    intro x
    rw [mem_build_names mem t hin, hn]
    simp
  have h4 := h3.length_eq
  simpa [Gv.names] using h4

/-- C3, refuted as stated: in a structure where the shared node 64 has a child,
the builder adds the edge from 64 to its child twice, so six edges for five
child links. -/
theorem one_edge_per_link_cex :
    sharedTree.inMem sharedHeap ∧
    edgesAfter sharedHeap 4 16 =
      some [("16", "32"), ("32", "64"), ("64", "80"), ("16", "48"), ("48", "64"), ("64", "80")] ∧
    namesAfter sharedHeap 4 16 = some ["16", "32", "64", "80", "48"] ∧
    (sharedTree.addrs.dedup.map (nonNullPointers sharedHeap)).sum = 5 := by
  refine ⟨by simp [sharedTree, Tree.inMem, sharedHeap, nullptr], by decide, by decide, by decide⟩

/-- C3, amended: for every finite acyclic structure, shared nodes included, the
builder leaves one graph-node per distinct reachable node, and adds the edge
of a link each time it visits the link's parent, once per root path: the edge
from `p` to `c` occurs (root paths to `p`) times (pointers of `p` holding `c`)
times, and the number of edges is the number of non-empty root paths. -/
theorem one_edge_per_link_per_path (mem : Heap) (t : Tree) (fuel : Nat)
    (hin : t.inMem mem) (hf : t.height ≤ fuel) :
    ∃ g, _visualize mem fuel emptyGv t.root = Except.ok g ∧
      g.names.Nodup ∧
      (∀ x, x ∈ g.names ↔ ∃ a ∈ t.addrs, x = idOf a) ∧
      g.graph.nodes.length = t.addrs.dedup.length ∧
      (∀ e, e ∈ g.graph.edges ↔
        ∃ p c, p ∈ t.addrs ∧ IsLink mem p c ∧ e = (idOf p, idOf c)) ∧
      (∀ p c, c ≠ nullptr →
        g.graph.edges.count (idOf p, idOf c) = t.addrs.count p * links mem p c) ∧
      g.graph.edges.length = t.addrs.length - 1 := by
  have hedges : (build t emptyGv).graph.edges = edgesOf t := by
    rw [build_edges]; simp [emptyGv]
  refine ⟨build t emptyGv, run_ok mem t fuel _ hin hf, ?_, ?_, ?_, ?_, ?_, ?_⟩
  · exact build_names_nodup t _ (by simp [emptyGv, Gv.names])
  · intro x
    rw [mem_build_names mem t hin]
    simp [emptyGv, Gv.names, eq_comm]
  · exact nodes_length_dedup mem t hin _ rfl
  · intro e; rw [hedges]; exact mem_edgesOf mem t hin e
  · intro p c hc; rw [hedges]; exact count_edgesOf mem p c hc t hin
  · rw [hedges]; exact edgesOf_length mem t hin

/-- C3 amended, at the structure with the shared node 64: five graph-nodes,
and two edges from 64 to its child 80. -/
theorem one_edge_per_link_per_path_witness :
    sharedTree.inMem sharedHeap ∧ sharedTree.height ≤ 4 ∧
    ∃ g, _visualize sharedHeap 4 emptyGv 16 = Except.ok g ∧
      g.graph.nodes.length = 5 ∧ g.graph.edges.count (idOf 64, idOf 80) = 2 ∧
      g.graph.edges.length = 6 := by
  refine ⟨by simp [sharedTree, Tree.inMem, sharedHeap, nullptr], by decide, ?_⟩
  obtain ⟨g, hg, _, _, hn, _, hc, he⟩ := one_edge_per_link_per_path sharedHeap sharedTree 4
    (by simp [sharedTree, Tree.inMem, sharedHeap, nullptr]) (by decide)
  refine ⟨g, hg, ?_, ?_, ?_⟩
  · rw [hn]; decide
  · rw [hc 64 80 (by decide)]; decide
  · rw [he]; decide

theorem countP_eq_or (A B : String × String) (hAB : A ≠ B) :
    ∀ (es : List (String × String)),
      es.countP (fun e => decide (e = A ∨ e = B)) = es.count A + es.count B := by
  intro es
  induction es with
  | nil => simp
  | cons e es ih =>
    rw [List.countP_cons, List.count_cons, List.count_cons, ih]
    by_cases h1 : e = A
    · subst h1
      have : ¬ (e = B) := hAB
      simp [this]
      omega
    · by_cases h2 : e = B
      · subst h2
        simp [h1]
        omega
      · simp [h1, h2]

/-- C4, refuted as stated: the node 96 has exactly the two parents 64 and 80,
and its graph-node gets three incoming edges, because the builder visits the
parent 64 once for each of the two paths to it; likewise the node 64 of
`twiceHeap`, whose parent 32 holds it in both pointers. -/
theorem diamond_two_incoming_cex :
    parentsOf nestedHeap [16, 32, 48, 64, 80, 96] 96 = [64, 80] ∧
    namesAfter nestedHeap 4 16 = some ["16", "32", "64", "96", "48", "80"] ∧
    (edgesAfter nestedHeap 4 16).map (fun es => es.filter fun e => decide (e.2 = idOf 96)) =
      some [("64", "96"), ("64", "96"), ("80", "96")] ∧
    parentsOf twiceHeap [16, 32, 48, 64] 64 = [32, 48] ∧
    (edgesAfter twiceHeap 3 16).map (fun es => es.filter fun e => decide (e.2 = idOf 64)) =
      some [("32", "64"), ("32", "64"), ("48", "64")] := by
  refine ⟨by decide, by decide, by decide, by decide, by decide⟩

/-- C4, amended: when the two parents `p1` and `p2` of `s` are each reached by
one root path and each hold `s` in one of their pointers, and no other
reachable node points to `s`, the builder returns, the graph has exactly one
graph-node named `id(s)`, and that graph-node has exactly two incoming edges,
one from `id(p1)` and one from `id(p2)`. -/
theorem diamond_two_incoming (mem : Heap) (t : Tree) (fuel : Nat) (p1 p2 s : Ptr)
    (hin : t.inMem mem) (hf : t.height ≤ fuel) (hs : s ≠ nullptr) (hne : p1 ≠ p2)
    (hp1 : t.addrs.count p1 = 1) (hp2 : t.addrs.count p2 = 1)
    (hl1 : links mem p1 s = 1) (hl2 : links mem p2 s = 1)
    (hno : ∀ q ∈ t.addrs, q ≠ p1 → q ≠ p2 → links mem q s = 0) :
    ∃ g, _visualize mem fuel emptyGv t.root = Except.ok g ∧
      g.names.count (idOf s) = 1 ∧
      (g.graph.edges.filter fun e => decide (e.2 = idOf s)).length = 2 ∧
      g.graph.edges.count (idOf p1, idOf s) = 1 ∧
      g.graph.edges.count (idOf p2, idOf s) = 1 := by
  have hedges : (build t emptyGv).graph.edges = edgesOf t := by
    rw [build_edges]; simp [emptyGv]
  have c1 : (edgesOf t).count (idOf p1, idOf s) = 1 := by
    rw [count_edgesOf mem p1 s hs t hin, hp1, hl1]
  have c2 : (edgesOf t).count (idOf p2, idOf s) = 1 := by
    rw [count_edgesOf mem p2 s hs t hin, hp2, hl2]
  have hAB : (idOf p1, idOf s) ≠ (idOf p2, idOf s) := by
    intro h
    exact hne (idOf_injective (Prod.mk.inj h).1)
  refine ⟨build t emptyGv, run_ok mem t fuel _ hin hf, ?_, ?_, ?_, ?_⟩
  · apply List.count_eq_one_of_mem (build_names_nodup t _ (by simp [emptyGv, Gv.names]))
    rw [mem_build_names mem t hin]
    right
    have hmem : (idOf p1, idOf s) ∈ edgesOf t := List.count_pos_iff.mp (by omega)
    have h2 : idOf s ∈ (edgesOf t).map Prod.snd := List.mem_map_of_mem Prod.snd hmem
    rw [edgesOf_heads mem t hin] at h2
    obtain ⟨a, ha, h⟩ := List.mem_map.mp h2
    exact List.mem_map.mpr ⟨a, List.mem_of_mem_tail ha, h⟩
  · rw [hedges, ← List.countP_eq_length_filter]
    have hcongr : (edgesOf t).countP (fun e => decide (e.2 = idOf s)) =
        (edgesOf t).countP (fun e => decide (e = (idOf p1, idOf s) ∨ e = (idOf p2, idOf s))) := by
      apply List.countP_congr
      intro e he
      simp only [decide_eq_true_eq]
      constructor
      · intro h2
        obtain ⟨p, c, hp, hl, rfl⟩ := (mem_edgesOf mem t hin e).mp he
        have hc : c = s := idOf_injective h2
        subst hc
        by_cases e1 : p = p1
        · left; rw [e1]
        · by_cases e2 : p = p2
          · right; rw [e2]
          · exfalso
            have h0 := hno p hp e1 e2
            obtain ⟨_, n, hn, hcn⟩ := hl
            rw [links_of_mem mem p c n hn] at h0
            rcases hcn with h | h <;> simp [h] at h0
      · rintro (h | h) <;> rw [h]
    rw [hcongr, countP_eq_or _ _ hAB, c1, c2]
  · rw [hedges]; exact c1
  · rw [hedges]; exact c2

/-- C4 amended, at the plain diamond: 64 is the left child of both 32 and 48. -/
theorem diamond_two_incoming_witness :
    diamondTree.inMem diamondHeap ∧ diamondTree.height ≤ 3 ∧
    ∃ g, _visualize diamondHeap 3 emptyGv 16 = Except.ok g ∧
      g.names.count (idOf 64) = 1 ∧
      (g.graph.edges.filter fun e => decide (e.2 = idOf 64)).length = 2 ∧
      g.graph.edges.count (idOf 32, idOf 64) = 1 ∧
      g.graph.edges.count (idOf 48, idOf 64) = 1 := by
  refine ⟨by simp [diamondTree, Tree.inMem, diamondHeap, nullptr], by decide, ?_⟩
  exact diamond_two_incoming diamondHeap diamondTree 3 32 48 64
    (by simp [diamondTree, Tree.inMem, diamondHeap, nullptr]) (by decide) (by decide)
    (by decide) (by decide) (by decide) (by decide) (by decide) (by decide)

/-! ## Claims on the top-level operation and on identifiers -/

/-- C5: on the null reference the builder returns at once with the graph
unchanged, and `visualize(nullptr, format, filename)` opens a graph, hands it
to the engine with no graph-node and no edge, and still lays out, renders,
frees the layout and closes the graph. -/
theorem null_root_empty_graph (self : BinaryTreeVisualizer) (mem : Heap) (fuel : Nat)
    (eng : Engine) (calls : List Call) (fmt file : Option String) (s : Gv)
    (ho : eng.agopen = true) :
    _visualize mem fuel s nullptr = Except.ok s ∧
    self.visualize mem fuel eng calls nullptr fmt file =
      Except.ok ((), calls ++ [Call.agopen "G" true false,
        Call.gvLayout self.gvc { nodes := [], edges := [] } "dot",
        Call.gvRenderFilename self.gvc { nodes := [], edges := [] } (fmt.getD "svg")
          (file.getD "binary_tree.svg"),
        Call.gvFreeLayout self.gvc { nodes := [], edges := [] },
        Call.agclose { nodes := [], edges := [] }]) := by
  refine ⟨visualize_null mem fuel s, ?_⟩
  rw [visualize_of_run self mem fuel eng calls nullptr fmt file _ ho (visualize_null mem fuel _)]
  simp [agopen, closing]

/-- C5, at `visualize(nullptr)` with both defaults and no depth budget at all. -/
theorem null_root_empty_graph_witness :
    okEngine.agopen = true ∧
    _visualize testHeap 0 emptyGv nullptr = Except.ok emptyGv ∧
    BinaryTreeVisualizer.visualize { gvc := 7 } testHeap 0 okEngine [] nullptr none none =
      Except.ok ((), [Call.agopen "G" true false,
        Call.gvLayout 7 { nodes := [], edges := [] } "dot",
        Call.gvRenderFilename 7 { nodes := [], edges := [] } "svg" "binary_tree.svg",
        Call.gvFreeLayout 7 { nodes := [], edges := [] },
        Call.agclose { nodes := [], edges := [] }]) :=
  ⟨rfl, null_root_empty_graph { gvc := 7 } testHeap 0 okEngine [] none none emptyGv rfl⟩

/-- C7: the identifier computed for a node reference, the decimal rendering of
its address, is the same string for the same reference and a different string
for a different reference. -/
theorem node_id_injective (p q : Ptr) :
    to_string (reinterpret_cast p) = to_string (reinterpret_cast q) ↔ p = q :=
  idOf_eq_iff p q

/-- C9: on a finite acyclic structure, whatever the engine's layout and render
return, `visualize` makes exactly these calls after those already logged:
`agopen` of one new empty directed graph, the builder's `agnode`, `agset` and
`agedge` calls, one `gvLayout` with `dot`, one `gvRenderFilename` with the
caller's format and file name (`svg` and `binary_tree.svg` when omitted), one
`gvFreeLayout` and one `agclose`, the last three on the graph that was built. -/
theorem call_sequence (self : BinaryTreeVisualizer) (mem : Heap) (t : Tree) (fuel : Nat)
    (eng : Engine) (calls : List Call) (fmt file : Option String)
    (hin : t.inMem mem) (hf : t.height ≤ fuel) (ho : eng.agopen = true) :
    ∃ ops g,
      _visualize mem fuel (agopen calls "G") t.root =
        Except.ok { graph := g, calls := calls ++ [Call.agopen "G" true false] ++ ops } ∧
      (∀ c ∈ ops, c.isBuilderOp = true) ∧
      self.visualize mem fuel eng calls t.root fmt file =
        Except.ok ((), calls ++ [Call.agopen "G" true false] ++ ops ++
          [Call.gvLayout self.gvc g "dot",
            Call.gvRenderFilename self.gvc g (fmt.getD "svg") (file.getD "binary_tree.svg"),
            Call.gvFreeLayout self.gvc g, Call.agclose g]) := by
  have hrun := run_ok mem t fuel (agopen calls "G") hin hf
  have hcalls : (build t (agopen calls "G")).calls =
      calls ++ [Call.agopen "G" true false] ++ opsOf t := by
    rw [build_calls]; rfl
  refine ⟨opsOf t, (build t (agopen calls "G")).graph, ?_, opsOf_isBuilderOp t, ?_⟩
  · rw [← hcalls]; exact hrun
  · rw [visualize_of_run self mem fuel eng calls t.root fmt file _ ho hrun, hcalls]
    rfl

/-- C9, at a single node with the default format and file name and the engine
that renders `svg` only. -/
theorem call_sequence_witness :
    singleTree.inMem singleHeap ∧ singleTree.height ≤ 1 ∧ svgOnlyEngine.agopen = true ∧
    ∃ ops g,
      _visualize singleHeap 1 (agopen [] "G") 16 =
        Except.ok { graph := g, calls := [] ++ [Call.agopen "G" true false] ++ ops } ∧
      (∀ c ∈ ops, c.isBuilderOp = true) ∧
      BinaryTreeVisualizer.visualize { gvc := 1 } singleHeap 1 svgOnlyEngine [] 16 none none =
        Except.ok ((), [] ++ [Call.agopen "G" true false] ++ ops ++
          [Call.gvLayout 1 g "dot", Call.gvRenderFilename 1 g "svg" "binary_tree.svg",
            Call.gvFreeLayout 1 g, Call.agclose g]) :=
  ⟨by simp [singleTree, Tree.inMem, singleHeap, nullptr], by decide, rfl,
    call_sequence { gvc := 1 } singleHeap singleTree 1 svgOnlyEngine [] none none
      (by simp [singleTree, Tree.inMem, singleHeap, nullptr]) (by decide) rfl⟩

/-! ## Order of the edges, and determinism -/

/-- C6: in a tree, for a node with both children, the edge list of the builder
run has the edge to the left child strictly before the edge to the right child,
and every edge whose head lies in the left subtree is the edge to the left
child or lies between the two. -/
theorem left_before_right (mem : Heap) (t : Tree) (fuel : Nat) (p : Ptr) (n : Node)
    (hin : t.inMem mem) (hnd : t.addrs.Nodup) (hf : t.height ≤ fuel)
    (hp : p ∈ t.addrs) (hm : mem p = some n)
    (hl : n.left ≠ nullptr) (hr : n.right ≠ nullptr) :
    ∃ g pre mid post, _visualize mem fuel emptyGv t.root = Except.ok g ∧
      g.graph.edges.Nodup ∧
      g.graph.edges = pre ++ (idOf p, idOf n.left) :: mid ++ (idOf p, idOf n.right) :: post ∧
      ∀ tl : Tree, tl.inMem mem → tl.root = n.left → ∀ e ∈ g.graph.edges,
        e.2 ∈ tl.addrs.map idOf → e ∈ (idOf p, idOf n.left) :: mid := by
  have hedges : (build t emptyGv).graph.edges = edgesOf t := by
    rw [build_edges]; simp [emptyGv]
  obtain ⟨v, tl0, tr0, hsub, hsubin⟩ := Tree.hasSub_of_mem mem p t hin hp
  obtain ⟨_, hm0, hl0, hr0⟩ := hsubin
  rw [hm] at hm0
  simp only [Option.some.injEq] at hm0
  subst hm0
  simp only at hl hr
  obtain ⟨pre, post, hdec⟩ := edgesOf_hasSub mem _ t hin hsub
  have hsubE : edgesOf (Tree.node p v tl0 tr0) =
      (idOf p, idOf tl0.root) :: edgesOf tl0 ++ (idOf p, idOf tr0.root) :: edgesOf tr0 := by
    simp [edgesOf, hl, hr]
  have hheads : ((edgesOf t).map Prod.snd).Nodup := by
    rw [edgesOf_heads mem t hin]
    exact (hnd.sublist (List.tail_sublist _)).map idOf_injective
  refine ⟨build t emptyGv, pre, edgesOf tl0, edgesOf tr0 ++ post,
    run_ok mem t fuel _ hin hf, ?_, ?_, ?_⟩
  · rw [hedges]; exact edgesOf_nodup mem t hin hnd
  · rw [hedges, hdec, hsubE]; simp
  · intro tl htl hroot e he h2
    have htl0 : tl = tl0 := Tree.inMem_unique mem tl tl0 htl hl0 hroot
    subst htl0
    rw [hedges] at he
    have hh : ((idOf p, idOf tl.root) :: edgesOf tl).map Prod.snd = tl.addrs.map idOf := by
      rw [List.map_cons, edgesOf_heads mem tl hl0]
      conv_rhs => rw [Tree.addrs_eq_cons tl hl]
      simp
    rw [← hh] at h2
    obtain ⟨e2, he2, h22⟩ := List.mem_map.mp h2
    have he2t : e2 ∈ edgesOf t := by
      rw [hdec, hsubE]
      simp only [List.mem_append, List.mem_cons] at he2 ⊢
      tauto
    have heq : e2 = e := List.inj_on_of_nodup_map hheads he2t he h22
    rw [← heq]; exact he2

/-- C6, at the root of the test tree: its left edge comes first, the two edges
of the left subtree follow, then its right edge. -/
theorem left_before_right_witness :
    testTree.inMem testHeap ∧ testTree.addrs.Nodup ∧ testTree.height ≤ 3 ∧
    (16 : Ptr) ∈ testTree.addrs ∧
    testHeap 16 = some { left := 32, right := 48, value := "root" } ∧
    ∃ g pre mid post, _visualize testHeap 3 emptyGv 16 = Except.ok g ∧
      g.graph.edges.Nodup ∧
      g.graph.edges = pre ++ (idOf 16, idOf 32) :: mid ++ (idOf 16, idOf 48) :: post ∧
      ∀ tl : Tree, tl.inMem testHeap → tl.root = 32 → ∀ e ∈ g.graph.edges,
        e.2 ∈ tl.addrs.map idOf → e ∈ (idOf 16, idOf 32) :: mid :=
  ⟨by simp [testTree, Tree.inMem, testHeap, nullptr], by decide, by decide, by decide, rfl,
    left_before_right testHeap testTree 3 16 { left := 32, right := 48, value := "root" }
      (by simp [testTree, Tree.inMem, testHeap, nullptr]) (by decide) (by decide) (by decide)
      rfl (by decide) (by decide)⟩

theorem agnode_graph_congr (s1 s2 : Gv) (x : String) (h : s1.graph = s2.graph) :
    (agnode s1 x).1.graph = (agnode s2 x).1.graph := by
  unfold agnode
  rw [h]
  split <;> rfl

theorem agset_graph_congr (s1 s2 : Gv) (x a v : String) (h : s1.graph = s2.graph) :
    (agset s1 x a v).graph = (agset s2 x a v).graph := by
  unfold agset
  rw [h]

theorem agedge_graph_congr (s1 s2 : Gv) (x y : String) (h : s1.graph = s2.graph) :
    (agedge s1 x y).graph = (agedge s2 x y).graph := by
  unfold agedge
  rw [h]

theorem build_graph_congr : ∀ (t : Tree) (s1 s2 : Gv), s1.graph = s2.graph →
    (build t s1).graph = (build t s2).graph := by
  intro t
  induction t with
  | nil => intro s1 s2 h; simpa [build] using h
  | node a v l r ihl ihr =>
    intro s1 s2 h
    have h1 := agset_graph_congr _ _ (idOf a) "label" (c_str v) (agnode_graph_congr s1 s2 (idOf a) h)
    have h2 : (if l.root = nullptr then agset (agnode s1 (idOf a)).1 (idOf a) "label" (c_str v)
        else build l (agedge (agnode (agset (agnode s1 (idOf a)).1 (idOf a) "label" (c_str v))
          (idOf l.root)).1 (idOf a) (idOf l.root))).graph =
        (if l.root = nullptr then agset (agnode s2 (idOf a)).1 (idOf a) "label" (c_str v)
        else build l (agedge (agnode (agset (agnode s2 (idOf a)).1 (idOf a) "label" (c_str v))
          (idOf l.root)).1 (idOf a) (idOf l.root))).graph := by
      split
      · exact h1
      · exact ihl _ _ (agedge_graph_congr _ _ _ _ (agnode_graph_congr _ _ _ h1))
    simp only [build]
    split
    · exact h2
    · exact ihr _ _ (agedge_graph_congr _ _ _ _ (agnode_graph_congr _ _ _ h2))

/-- C10: two runs of the builder on the same unmodified finite acyclic
left/right structure, each on a freshly opened empty graph, whatever was logged before
either, whatever else memory holds, and whatever sufficient depth budget,
return graphs with the same graph-nodes in the same order, the same labels
and the same edge list. -/
theorem runs_agree (mem1 mem2 : Heap) (t : Tree) (fuel1 fuel2 : Nat)
    (calls1 calls2 : List Call)
    (hin : t.inMem mem1) (hsame : ∀ a ∈ t.addrs, mem2 a = mem1 a)
    (hf1 : t.height ≤ fuel1) (hf2 : t.height ≤ fuel2) :
    ∃ g1 g2, _visualize mem1 fuel1 (agopen calls1 "G") t.root = Except.ok g1 ∧
      _visualize mem2 fuel2 (agopen calls2 "G") t.root = Except.ok g2 ∧
      g1.names = g2.names ∧
      g1.graph.nodes.map Agnode.label = g2.graph.nodes.map Agnode.label ∧
      g1.graph.edges = g2.graph.edges := by
  have hin2 : t.inMem mem2 := Tree.inMem_congr mem1 mem2 t hsame hin
  have hg : (build t (agopen calls1 "G")).graph = (build t (agopen calls2 "G")).graph :=
    build_graph_congr t _ _ rfl
  refine ⟨_, _, run_ok mem1 t fuel1 _ hin hf1, run_ok mem2 t fuel2 _ hin2 hf2, ?_, ?_, ?_⟩
  · simp only [Gv.names, hg]
  · rw [hg]
  · rw [hg]

/-- C10, at the test tree: the second run starts after the calls of a first
one and has a different depth budget. -/
theorem runs_agree_witness :
    testTree.inMem testHeap ∧ (∀ a ∈ testTree.addrs, testHeap a = testHeap a) ∧
    testTree.height ≤ 3 ∧ testTree.height ≤ 5 ∧
    ∃ g1 g2, _visualize testHeap 3 (agopen [] "G") 16 = Except.ok g1 ∧
      _visualize testHeap 5 (agopen [Call.gvContext 1, Call.agopen "G" true false] "G") 16 =
        Except.ok g2 ∧
      g1.names = g2.names ∧
      g1.graph.nodes.map Agnode.label = g2.graph.nodes.map Agnode.label ∧
      g1.graph.edges = g2.graph.edges :=
  ⟨by simp [testTree, Tree.inMem, testHeap, nullptr], fun _ _ => rfl, by decide, by decide,
    runs_agree testHeap testHeap testTree 3 5 [] [Call.gvContext 1, Call.agopen "G" true false]
      (by simp [testTree, Tree.inMem, testHeap, nullptr]) (fun _ _ => rfl) (by decide)
      (by decide)⟩

/-! ## The engine context -/

theorem builderOp_context (c : Call) (h : c.isBuilderOp = true) :
    c.context = none ∧ c.isContextLifecycle = false ∧ c.isLayout = false := by
  cases c <;> simp [Call.isBuilderOp] at h <;> exact ⟨rfl, rfl, rfl⟩

theorem visualizeAll_calls (self : BinaryTreeVisualizer) (mem : Heap) (fuel : Nat)
    (eng : Engine) (ho : eng.agopen = true) :
    ∀ (reqs : List Request) (calls : List Call),
      (∀ r ∈ reqs, ∃ t : Tree, t.inMem mem ∧ t.root = r.root ∧ t.height ≤ fuel) →
      ∃ added, visualizeAll self mem fuel eng reqs calls = Except.ok (calls ++ added) ∧
        (∀ c ∈ added, c.isContextLifecycle = false ∧
          (c.context = none ∨ c.context = some self.gvc)) ∧
        added.countP Call.isLayout = reqs.length := by
  intro reqs
  induction reqs with
  | nil => intro calls _; exact ⟨[], by simp [visualizeAll], by simp, by simp⟩
  | cons r rest ih =>
    intro calls hreq
    obtain ⟨t, hin, hroot, hf⟩ := hreq r (List.mem_cons_self _ _)
    have hrun := run_ok mem t fuel (agopen calls "G") hin hf
    rw [hroot] at hrun
    have hv := visualize_of_run self mem fuel eng calls r.root r.output_file_format
      r.output_filename _ ho hrun
    rw [build_calls] at hv
    obtain ⟨added, h1, h2, h3⟩ := ih
      ((agopen calls "G").calls ++ opsOf t ++ closing self.gvc (build t (agopen calls "G")).graph
        (r.output_file_format.getD "svg") (r.output_filename.getD "binary_tree.svg"))
      (fun r2 hr2 => hreq r2 (List.mem_cons_of_mem _ hr2))
    refine ⟨[Call.agopen "G" true false] ++ opsOf t ++
      closing self.gvc (build t (agopen calls "G")).graph
        (r.output_file_format.getD "svg") (r.output_filename.getD "binary_tree.svg") ++ added,
      ?_, ?_, ?_⟩
    · simp only [visualizeAll, hv, h1]
      simp [agopen]
    · intro c hc
      simp only [List.mem_append, List.mem_singleton] at hc
      rcases hc with ((hc | hc) | hc) | hc
      · subst hc; exact ⟨rfl, Or.inl rfl⟩
      · have := builderOp_context c (opsOf_isBuilderOp t c hc)
        exact ⟨this.2.1, Or.inl this.1⟩
      · simp only [closing, List.mem_cons, List.mem_singleton, List.not_mem_nil, or_false] at hc
        rcases hc with rfl | rfl | rfl | rfl
        · exact ⟨rfl, Or.inr rfl⟩
        · exact ⟨rfl, Or.inr rfl⟩
        · exact ⟨rfl, Or.inr rfl⟩
        · exact ⟨rfl, Or.inl rfl⟩
      · exact h2 c hc
    · have hops : (opsOf t).countP Call.isLayout = 0 := by
        rw [List.countP_eq_zero]
        intro c hc
        simp [(builderOp_context c (opsOf_isBuilderOp t c hc)).2.2]
      simp only [List.countP_append, hops, h3, closing]
      simp [List.countP_cons, Call.isLayout]
      omega

/-- C11: in the life of a converter the engine context is acquired once, by the
constructor, and released once, by the destructor; no `visualize` call acquires
or releases a context, the converter each call works on has the constructor's
context in `gvc`, and every layout, render and free-layout request of every
call is given that context. -/
theorem context_reused (ctx : Nat) (mem : Heap) (fuel : Nat) (eng : Engine)
    (reqs : List Request) (ho : eng.agopen = true)
    (hreq : ∀ r ∈ reqs, ∃ t : Tree, t.inMem mem ∧ t.root = r.root ∧ t.height ≤ fuel) :
    (BinaryTreeVisualizer.new [] ctx).1.gvc = ctx ∧
    ∃ mid,
      visualizeAll (BinaryTreeVisualizer.new [] ctx).1 mem fuel eng reqs
          (BinaryTreeVisualizer.new [] ctx).2 = Except.ok ([Call.gvContext ctx] ++ mid) ∧
      lifetime ctx mem fuel eng reqs =
        Except.ok ([Call.gvContext ctx] ++ mid ++ [Call.gvFreeContext ctx]) ∧
      (∀ c ∈ mid, c.isContextLifecycle = false) ∧
      (∀ c ∈ mid, c.context = none ∨ c.context = some ctx) ∧
      mid.countP Call.isLayout = reqs.length := by
  obtain ⟨added, h1, h2, h3⟩ := visualizeAll_calls (BinaryTreeVisualizer.new [] ctx).1 mem fuel
    eng ho reqs (BinaryTreeVisualizer.new [] ctx).2 hreq
  refine ⟨rfl, added, ?_, ?_, fun c hc => (h2 c hc).1, fun c hc => (h2 c hc).2, h3⟩
  · rw [h1]; rfl
  · simp only [lifetime, h1]
    rfl

/-- C11, at two `visualize` calls on one converter with context 7: the test
program's call, then a call with the null root and both defaults. -/
theorem context_reused_witness :
    okEngine.agopen = true ∧
    (∀ r ∈ [Request.mk 16 (some "svg") (some "binary_tree_test.svg"), Request.mk 0 none none],
      ∃ t : Tree, t.inMem testHeap ∧ t.root = r.root ∧ t.height ≤ 3) ∧
    ∃ mid,
      lifetime 7 testHeap 3 okEngine
          [Request.mk 16 (some "svg") (some "binary_tree_test.svg"), Request.mk 0 none none] =
        Except.ok ([Call.gvContext 7] ++ mid ++ [Call.gvFreeContext 7]) ∧
      (∀ c ∈ mid, c.isContextLifecycle = false) ∧
      (∀ c ∈ mid, c.context = none ∨ c.context = some 7) ∧
      mid.countP Call.isLayout = 2 := by
  have hreq : ∀ r ∈ [Request.mk 16 (some "svg") (some "binary_tree_test.svg"),
      Request.mk 0 none none],
      ∃ t : Tree, t.inMem testHeap ∧ t.root = r.root ∧ t.height ≤ 3 := by
    intro r hr
    simp only [List.mem_cons, List.mem_singleton, List.not_mem_nil, or_false] at hr
    rcases hr with rfl | rfl
    · exact ⟨testTree, by simp [testTree, Tree.inMem, testHeap, nullptr], rfl, by decide⟩
    · exact ⟨Tree.nil, trivial, rfl, by decide⟩
  obtain ⟨_, mid, _, h2, h3, h4, h5⟩ := context_reused 7 testHeap 3 okEngine
    [Request.mk 16 (some "svg") (some "binary_tree_test.svg"), Request.mk 0 none none] rfl hreq
  exact ⟨rfl, hreq, mid, h2, h3, h4, h5⟩


/-! ## Creation order -/

theorem agset_nodes (s : Gv) (x v : String) :
    (agset s x "label" v).graph.nodes =
      s.graph.nodes.map fun nd => if nd.name = x then { nd with label := v } else nd := by
  simp [agset]

theorem relabel_of_not_mem (nodes : List Agnode) (x v : String)
    (h : x ∉ nodes.map Agnode.name) :
    (nodes.map fun nd => if nd.name = x then { nd with label := v } else nd) = nodes := by
  induction nodes with
  | nil => rfl
  | cons nd rest ih =>
    simp only [List.map_cons, List.mem_cons, not_or] at h
    simp only [List.map_cons, ih h.2]
    rw [if_neg (fun e => h.1 e.symm)]

theorem first_visit_nodes (s : Gv) (x v : String) (h : x ∉ s.names) :
    (agset (agnode s x).1 x "label" v).graph.nodes =
      s.graph.nodes ++ [{ name := x, label := v }] := by
  rw [agset_nodes, agnode_nodes, if_neg h, List.map_append,
    relabel_of_not_mem _ _ _ (by simpa [Gv.names] using h)]
  simp

theorem first_visit_names (s : Gv) (x v : String) (h : x ∉ s.names) :
    (agset (agnode s x).1 x "label" v).names = s.names ++ [x] := by
  rw [agset_names, agnode_names, if_neg h]

theorem child_visit_nodes (s : Gv) (x y v : String) (h : y ∉ s.names) :
    (agset (agnode (agedge (agnode s y).1 x y) y).1 y "label" v).graph.nodes =
      s.graph.nodes ++ [{ name := y, label := v }] := by
  have hin : y ∈ (agedge (agnode s y).1 x y).names := by
    rw [agedge_names, agnode_names, if_neg h]; simp
  rw [agset_nodes, agnode_nodes, if_pos hin, agedge_nodes, agnode_nodes, if_neg h,
    List.map_append, relabel_of_not_mem _ _ _ (by simpa [Gv.names] using h)]
  simp

theorem Tree.pairs_fst : ∀ (t : Tree), t.pairs.map Prod.fst = t.addrs := by
  intro t
  induction t with
  | nil => rfl
  | node a v l r ihl ihr => simp [Tree.pairs, Tree.addrs, ihl, ihr]

theorem names_of_nodes (s : Gv) (ps : List (Ptr × String)) (base : List Agnode)
    (h : s.graph.nodes = base ++ ps.map graphNode) :
    s.names = base.map Agnode.name ++ ps.map fun av => idOf av.1 := by
  simp [Gv.names, h, graphNode, Function.comp_def]

/-- After the node itself has been created and labelled, the two child steps
of a tree append the pre-order listings of the subtrees. -/
theorem build_child_nodes (mem : Heap) : ∀ (c : Tree), c.inMem mem → c.addrs.Nodup →
    ∀ (s : Gv) (x : String), c.root ≠ nullptr → (∀ b ∈ c.addrs, idOf b ∉ s.names) →
      (build c (agedge (agnode s (idOf c.root)).1 x (idOf c.root))).graph.nodes =
        s.graph.nodes ++ c.pairs.map graphNode := by
  intro c
  induction c with
  | nil => intro _ _ s x h0; exact absurd rfl h0
  | node a v l r ihl ihr =>
    intro hin hnd s x _ hfresh
    obtain ⟨_, _, hl, hr⟩ := hin
    simp only [Tree.addrs, List.nodup_cons, List.mem_append, not_or] at hnd
    obtain ⟨⟨hal, har⟩, hlr⟩ := hnd
    have hndl : l.addrs.Nodup := (List.nodup_append.mp hlr).1
    have hndr : r.addrs.Nodup := (List.nodup_append.mp hlr).2.1
    have hdisj := (List.nodup_append.mp hlr).2.2
    have ha : idOf a ∉ s.names := hfresh a (by simp [Tree.addrs])
    -- the state after the node has been found and labelled in its own frame
    have n1 : (agset (agnode (agedge (agnode s (idOf a)).1 x (idOf a)) (idOf a)).1 (idOf a)
        "label" (c_str v)).graph.nodes = s.graph.nodes ++ [graphNode (a, v)] :=
      child_visit_nodes s x (idOf a) (c_str v) ha
    have m1 : (agset (agnode (agedge (agnode s (idOf a)).1 x (idOf a)) (idOf a)).1 (idOf a)
        "label" (c_str v)).names = s.names ++ [idOf a] := by
      simp [Gv.names, n1, graphNode]
    -- the state after the left subtree
    have step2 : ∃ s2 : Gv,
        (if l.root = nullptr then
          agset (agnode (agedge (agnode s (idOf a)).1 x (idOf a)) (idOf a)).1 (idOf a) "label" (c_str v)
        else build l (agedge (agnode (agset (agnode (agedge (agnode s (idOf a)).1 x (idOf a))
          (idOf a)).1 (idOf a) "label" (c_str v)) (idOf l.root)).1 (idOf a) (idOf l.root))) = s2 ∧
        s2.graph.nodes = s.graph.nodes ++ (graphNode (a, v) :: l.pairs.map graphNode) := by
      refine ⟨_, rfl, ?_⟩
      by_cases h1 : l.root = nullptr
      · rw [if_pos h1, n1, Tree.eq_nil_of_root mem l hl h1]
        simp [Tree.pairs]
      · rw [if_neg h1, ihl hl hndl _ _ h1, n1]
        · simp
        · intro b hb
          rw [m1]
          simp only [List.mem_append, List.mem_singleton, not_or]
          refine ⟨hfresh b (by simp [Tree.addrs, hb]), ?_⟩
          intro e
          exact hal (idOf_injective e ▸ hb)
    obtain ⟨s2, e2, n2⟩ := step2
    have m2 : s2.names = s.names ++ (idOf a :: l.addrs.map idOf) := by
      have := names_of_nodes s2 ((a, v) :: l.pairs) s.graph.nodes (by simpa using n2)
      rw [this]
      simp [Gv.names, ← Tree.pairs_fst l, Function.comp_def]
    simp only [build, Tree.root_node]
    rw [e2]
    by_cases h1 : r.root = nullptr
    · rw [if_pos h1, n2, Tree.eq_nil_of_root mem r hr h1]
      simp [Tree.pairs]
    · rw [if_neg h1, ihr hr hndr _ _ h1, n2]
      · simp [Tree.pairs]
      · intro b hb
        rw [m2]
        simp only [List.mem_append, List.mem_cons, List.mem_map, not_or, not_exists, not_and]
        refine ⟨hfresh b (by simp [Tree.addrs, hb]), ?_, ?_⟩
        · intro e
          exact har (idOf_injective e ▸ hb)
        · intro b2 hb2 e
          have : b2 = b := idOf_injective e
          subst this
          exact hdisj hb2 hb
theorem build_tree_nodes (mem : Heap) (t : Tree) (hin : t.inMem mem) (hnd : t.addrs.Nodup)
    (s : Gv) (hs : s.graph.nodes = []) :
    (build t s).graph.nodes = t.pairs.map graphNode := by
  cases t with
  | nil => simpa [build, Tree.pairs] using hs
  | node a v l r =>
    obtain ⟨_, _, hl, hr⟩ := hin
    simp only [Tree.addrs, List.nodup_cons, List.mem_append, not_or] at hnd
    obtain ⟨⟨hal, har⟩, hlr⟩ := hnd
    have hndl : l.addrs.Nodup := (List.nodup_append.mp hlr).1
    have hndr : r.addrs.Nodup := (List.nodup_append.mp hlr).2.1
    have hdisj := (List.nodup_append.mp hlr).2.2
    have hnames : s.names = [] := by simp [Gv.names, hs]
    have n1 : (agset (agnode s (idOf a)).1 (idOf a) "label" (c_str v)).graph.nodes =
        [graphNode (a, v)] := by
      rw [first_visit_nodes s (idOf a) (c_str v) (by simp [hnames]), hs]; rfl
    have m1 : (agset (agnode s (idOf a)).1 (idOf a) "label" (c_str v)).names = [idOf a] := by
      simp [Gv.names, n1, graphNode]
    have step2 : ∃ s2 : Gv,
        (if l.root = nullptr then agset (agnode s (idOf a)).1 (idOf a) "label" (c_str v)
        else build l (agedge (agnode (agset (agnode s (idOf a)).1 (idOf a) "label" (c_str v))
          (idOf l.root)).1 (idOf a) (idOf l.root))) = s2 ∧
        s2.graph.nodes = graphNode (a, v) :: l.pairs.map graphNode := by
      refine ⟨_, rfl, ?_⟩
      by_cases h1 : l.root = nullptr
      · rw [if_pos h1, n1, Tree.eq_nil_of_root mem l hl h1]
        simp [Tree.pairs]
      · rw [if_neg h1, build_child_nodes mem l hl hndl _ _ h1, n1]
        · simp
        · intro b hb
          rw [m1]
          simp only [List.mem_singleton]
          intro e
          exact hal (idOf_injective e ▸ hb)
    obtain ⟨s2, e2, n2⟩ := step2
    have m2 : s2.names = idOf a :: l.addrs.map idOf := by
      have := names_of_nodes s2 ((a, v) :: l.pairs) [] (by simpa using n2)
      rw [this]
      simp [← Tree.pairs_fst l, Function.comp_def]
    simp only [build]
    rw [e2]
    by_cases h1 : r.root = nullptr
    · rw [if_pos h1, n2, Tree.eq_nil_of_root mem r hr h1]
      simp [Tree.pairs]
    · rw [if_neg h1, build_child_nodes mem r hr hndr _ _ h1, n2]
      · simp [Tree.pairs]
      · intro b hb
        rw [m2]
        simp only [List.mem_cons, List.mem_map, not_or, not_exists, not_and]
        refine ⟨?_, ?_⟩
        · intro e
          exact har (idOf_injective e ▸ hb)
        · intro b2 hb2 e
          have : b2 = b := idOf_injective e
          subst this
          exact hdisj hb2 hb

theorem build_tree_names (mem : Heap) (t : Tree) (hin : t.inMem mem) (hnd : t.addrs.Nodup)
    (s : Gv) (hs : s.graph.nodes = []) :
    (build t s).names = t.addrs.map idOf := by
  have h := names_of_nodes (build t s) t.pairs [] (by simpa using build_tree_nodes mem t hin hnd s hs)
  rw [h, ← Tree.pairs_fst t]
  simp [Function.comp_def]

theorem links_pos_iff (mem : Heap) (p c : Ptr) :
    0 < links mem p c ↔ ∃ n, mem p = some n ∧ (n.left = c ∨ n.right = c) := by
  unfold links
  cases hm : mem p with
  | none => simp
  | some n =>
    simp only [Option.some.injEq, exists_eq_left']
    by_cases h1 : n.left = c <;> by_cases h2 : n.right = c <;> simp [h1, h2]

theorem parent_unique (mem : Heap) (t : Tree) (hin : t.inMem mem) (hnd : t.addrs.Nodup)
    (p q c : Ptr) (hp : p ∈ t.addrs) (hq : q ∈ t.addrs)
    (hpc : IsLink mem p c) (hqc : IsLink mem q c) : p = q := by
  have hheads : ((edgesOf t).map Prod.snd).Nodup := by
    rw [edgesOf_heads mem t hin]
    exact (hnd.sublist (List.tail_sublist _)).map idOf_injective
  have e1 : (idOf p, idOf c) ∈ edgesOf t := (mem_edgesOf mem t hin _).mpr ⟨p, c, hp, hpc, rfl⟩
  have e2 : (idOf q, idOf c) ∈ edgesOf t := (mem_edgesOf mem t hin _).mpr ⟨q, c, hq, hqc, rfl⟩
  have := List.inj_on_of_nodup_map hheads e1 e2 rfl
  exact idOf_injective (Prod.mk.inj this).1

theorem parentOf_eq (mem : Heap) (t : Tree) (hin : t.inMem mem) (hnd : t.addrs.Nodup)
    (p c : Ptr) (hp : p ∈ t.addrs) (hpc : IsLink mem p c) : parentOf mem t.addrs c = p := by
  unfold parentOf
  cases hf : t.addrs.find? (fun p => decide (0 < links mem p c)) with
  | none =>
    exfalso
    have := List.find?_eq_none.mp hf p hp
    simp only [decide_eq_true_eq] at this
    exact this ((links_pos_iff mem p c).mpr hpc.2)
  | some q =>
    have hq : q ∈ t.addrs := List.mem_of_find?_eq_some hf
    have hql := List.find?_some hf
    simp only [decide_eq_true_eq] at hql
    have hqc : IsLink mem q c := ⟨hpc.1, (links_pos_iff mem q c).mp hql⟩
    simpa using parent_unique mem t hin hnd q p c hq hp hqc hpc

theorem edges_eq_map (P : Ptr → Ptr) : ∀ (es : List (String × String)) (cs : List Ptr),
    es.map Prod.snd = cs.map idOf →
    (∀ e ∈ es, ∀ c, e.2 = idOf c → e.1 = idOf (P c)) →
    es = cs.map fun c => (idOf (P c), idOf c) := by
  intro es
  induction es with
  | nil =>
    intro cs h _
    cases cs with
    | nil => rfl
    | cons c cs => simp at h
  | cons e es ih =>
    intro cs h hP
    cases cs with
    | nil => simp at h
    | cons c cs =>
      simp only [List.map_cons, List.cons.injEq] at h
      rw [List.map_cons, ← ih cs h.2 (fun e2 he2 => hP e2 (List.mem_cons_of_mem _ he2)),
        ← hP e (List.mem_cons_self _ _) c h.1, ← h.1]

/-- C12: on a finite binary tree without shared subtrees, the graph-nodes are
created in the pre-order of the tree's nodes, and the edges are created in the
pre-order of the non-root nodes, each as the edge from its parent to it. -/
theorem preorder_emission (mem : Heap) (t : Tree) (fuel : Nat)
    (hin : t.inMem mem) (hnd : t.addrs.Nodup) (hf : t.height ≤ fuel) :
    ∃ g, _visualize mem fuel emptyGv t.root = Except.ok g ∧
      g.names = t.addrs.map idOf ∧
      g.graph.edges = t.addrs.tail.map fun c => (idOf (parentOf mem t.addrs c), idOf c) := by
  refine ⟨build t emptyGv, run_ok mem t fuel _ hin hf, build_tree_names mem t hin hnd _ rfl, ?_⟩
  have hedges : (build t emptyGv).graph.edges = edgesOf t := by
    rw [build_edges]; simp [emptyGv]
  rw [hedges]
  apply edges_eq_map (parentOf mem t.addrs) _ _ (edgesOf_heads mem t hin)
  intro e he c hc
  obtain ⟨p, c2, hp, hl, rfl⟩ := (mem_edgesOf mem t hin e).mp he
  have : c2 = c := idOf_injective hc
  subst this
  rw [parentOf_eq mem t hin hnd p c2 hp hl]

/-- C12, at the test tree: the graph-nodes in the order root, left, left.left,
left.right, right, right.left, right.right, and the six edges in the order of
their heads. -/
theorem preorder_emission_witness :
    testTree.inMem testHeap ∧ testTree.addrs.Nodup ∧ testTree.height ≤ 3 ∧
    ∃ g, _visualize testHeap 3 emptyGv 16 = Except.ok g ∧
      g.names = ["16", "32", "64", "80", "48", "96", "112"] ∧
      g.graph.edges = [("16", "32"), ("32", "64"), ("32", "80"), ("16", "48"), ("48", "96"),
        ("48", "112")] := by
  refine ⟨by simp [testTree, Tree.inMem, testHeap, nullptr], by decide, by decide, ?_⟩
  obtain ⟨g, hg, hn, he⟩ := preorder_emission testHeap testTree 3
    (by simp [testTree, Tree.inMem, testHeap, nullptr]) (by decide) (by decide)
  refine ⟨g, hg, ?_, ?_⟩
  · rw [hn]; decide
  · rw [he]; decide


/-! ## Termination -/

theorem HasCycle.child (mem : Heap) (x : Ptr) (h : HasCycle mem x) :
    ∃ c, IsLink mem x c ∧ HasCycle mem c := by
  obtain ⟨_, p, c, hxp, hpc, hcp⟩ := h
  cases hxp with
  | refl => exact ⟨c, hpc, hpc.1, x, c, hcp, hpc, hcp⟩
  | step _ c2 _ hl hr => exact ⟨c2, hl, hl.1, p, c, hr, hpc, hcp⟩

theorem visualize_zero (mem : Heap) (s : Gv) (p : Ptr) (hp : p ≠ nullptr) :
    _visualize mem 0 s p = Except.error Fault.depth := by
  simp [_visualize, hp]

theorem visualize_cycle (mem : Heap) : ∀ (fuel : Nat) (x : Ptr) (s : Gv), HasCycle mem x →
    ∀ g, _visualize mem fuel s x ≠ Except.ok g := by
  intro fuel
  induction fuel with
  | zero =>
    intro x s h g
    rw [visualize_zero mem s x h.1]
    exact fun e => Except.noConfusion e
  | succ f ih =>
    intro x s h g
    obtain ⟨c, ⟨hc0, n, hm, hcn⟩, hcyc⟩ := HasCycle.child mem x h
    rw [visualize_succ mem f s x n h.1 hm]
    rcases hcn with hl | hr
    · have hl0 : n.left ≠ nullptr := hl ▸ hc0
      rw [if_pos hl0, hl]
      cases hres : _visualize mem f (agedge (agnode (agset (agnode s (idOf x)).1 (idOf x)
          "label" (c_str n.repr)) (idOf c)).1 (idOf x) (idOf c)) c with
      | error e => exact fun e2 => Except.noConfusion e2
      | ok g2 => exact absurd hres (ih c _ hcyc g2)
    · subst hr
      cases hres : (if n.left ≠ nullptr then
          _visualize mem f (agedge (agnode (agset (agnode s (idOf x)).1 (idOf x) "label" (c_str n.repr))
            (idOf n.left)).1 (idOf x) (idOf n.left)) n.left
        else Except.ok (agset (agnode s (idOf x)).1 (idOf x) "label" (c_str n.repr))) with
      | error e => exact fun e2 => Except.noConfusion e2
      | ok g2 =>
        simp only [if_pos hc0]
        exact ih _ _ hcyc g

/-- C13: on a finite acyclic structure the builder returns, with the same
result for every depth budget from the height of the unfolding on; when a
cycle is reachable from the root it returns for no depth budget at all. -/
theorem terminates_unless_cyclic (mem : Heap) (t : Tree) (hin : t.inMem mem)
    (mem2 : Heap) (root2 : Ptr) (hcyc : HasCycle mem2 root2) :
    (∀ s, ∃ g, ∀ fuel, t.height ≤ fuel → _visualize mem fuel s t.root = Except.ok g) ∧
    (∀ fuel s g, _visualize mem2 fuel s root2 ≠ Except.ok g) :=
  ⟨fun s => ⟨build t s, fun fuel hf => run_ok mem t fuel s hin hf⟩,
    fun fuel s g => visualize_cycle mem2 fuel root2 s hcyc g⟩

/-- C13, at the test tree, at the node whose `left` pointer is the node
itself, and at a root whose right grandchild pointer leads back to it. -/
theorem terminates_unless_cyclic_witness :
    testTree.inMem testHeap ∧ HasCycle loopHeap 16 ∧ HasCycle backHeap 16 ∧
    (∀ s, ∃ g, ∀ fuel, 3 ≤ fuel → _visualize testHeap fuel s 16 = Except.ok g) ∧
    (∀ fuel s g, _visualize loopHeap fuel s 16 ≠ Except.ok g) ∧
    (∀ fuel s g, _visualize backHeap fuel s 16 ≠ Except.ok g) := by
  have h1 : testTree.inMem testHeap := by simp [testTree, Tree.inMem, testHeap, nullptr]
  have h2 : HasCycle loopHeap 16 :=
    ⟨by decide, 16, 16, Reach.refl 16, ⟨by decide, _, rfl, Or.inl rfl⟩, Reach.refl 16⟩
  have h3 : HasCycle backHeap 16 :=
    ⟨by decide, 16, 48, Reach.refl 16, ⟨by decide, _, rfl, Or.inr rfl⟩,
      Reach.step 48 16 16 ⟨by decide, _, rfl, Or.inr rfl⟩ (Reach.refl 16)⟩
  exact ⟨h1, h2, h3, (terminates_unless_cyclic testHeap testTree h1 loopHeap 16 h2).1,
    (terminates_unless_cyclic testHeap testTree h1 loopHeap 16 h2).2,
    (terminates_unless_cyclic testHeap testTree h1 backHeap 16 h3).2⟩


/-! ## The unfolding laid out as a tree -/

theorem Tree.number_addrs : ∀ (t : Tree) (k : Nat),
    (t.number k).addrs = List.range' k t.addrs.length := by
  intro t
  induction t with
  | nil => intro k; rfl
  | node a v l r ihl ihr =>
    intro k
    simp only [Tree.number, Tree.addrs, ihl, ihr, List.length_cons, List.length_append,
      List.range'_succ, List.length_range']
    rw [List.range'_append_1]
    congr 2
    omega

theorem Tree.number_height : ∀ (t : Tree) (k : Nat), (t.number k).height = t.height := by
  intro t
  induction t with
  | nil => intro k; rfl
  | node a v l r ihl ihr => intro k; simp [Tree.number, Tree.height, ihl, ihr]

theorem Tree.number_root (t : Tree) (k : Nat) (h : t.root ≠ nullptr) : (t.number k).root = k := by
  cases t with
  | nil => exact absurd rfl h
  | node a v l r => rfl

theorem Tree.number_nodup (t : Tree) (k : Nat) : (t.number k).addrs.Nodup := by
  rw [Tree.number_addrs]; exact List.nodup_range' k _

theorem Tree.mapAddr_number : ∀ (t : Tree) (k : Nat) (f : Ptr → Ptr),
    (∀ i, i < t.addrs.length → f (k + i) = t.addrs.getD i nullptr) →
    (t.number k).mapAddr f = t := by
  intro t
  induction t with
  | nil => intro k f _; rfl
  | node a v l r ihl ihr =>
    intro k f h
    have h0 : f k = a := by
      have := h 0 (by simp [Tree.addrs])
      simpa [Tree.addrs] using this
    have hlen : (Tree.node a v l r).addrs.length = l.addrs.length + r.addrs.length + 1 := by
      simp [Tree.addrs]
    have hl : ∀ i, i < l.addrs.length → f (k + 1 + i) = l.addrs.getD i nullptr := by
      intro i hi
      have hi2 : i + 1 < (Tree.node a v l r).addrs.length := by rw [hlen]; omega
      have := h (i + 1) hi2
      rw [Tree.addrs, List.getD_cons_succ, List.getD_append _ _ _ _ hi] at this
      have e : k + 1 + i = k + (i + 1) := by omega
      rw [e]; exact this
    have hr : ∀ i, i < r.addrs.length →
        f (k + 1 + l.addrs.length + i) = r.addrs.getD i nullptr := by
      intro i hi
      have hi2 : l.addrs.length + i + 1 < (Tree.node a v l r).addrs.length := by
        rw [hlen]; omega
      have := h (l.addrs.length + i + 1) hi2
      rw [Tree.addrs, List.getD_cons_succ,
        List.getD_append_right _ _ _ _ (Nat.le_add_right _ _)] at this
      simp only [Nat.add_sub_cancel_left] at this
      have e : k + 1 + l.addrs.length + i = k + (l.addrs.length + i + 1) := by omega
      rw [e]; exact this
    simp only [Tree.number, Tree.mapAddr, h0, ihl (k + 1) f hl, ihr _ f hr]

theorem Tree.mapAddr_original (t : Tree) : (t.number 1).mapAddr (originalOf t) = t := by
  apply Tree.mapAddr_number
  intro i _
  simp [originalOf]

theorem Tree.asHeap_none : ∀ (u : Tree) (p : Ptr), p ∉ u.addrs → u.asHeap p = none := by
  intro u
  induction u with
  | nil => intro p _; rfl
  | node a v l r ihl ihr =>
    intro p hp
    simp only [Tree.addrs, List.mem_cons, List.mem_append, not_or] at hp
    simp [Tree.asHeap, hp.1, ihl p hp.2.1, ihr p hp.2.2]

theorem Tree.inMem_asHeap : ∀ (u : Tree), u.addrs.Nodup → (∀ a ∈ u.addrs, a ≠ nullptr) →
    u.inMem u.asHeap := by
  intro u
  induction u with
  | nil => intro _ _; trivial
  | node a v l r ihl ihr =>
    intro hnd hne
    simp only [Tree.addrs, List.nodup_cons, List.mem_append, not_or] at hnd
    obtain ⟨⟨hal, har⟩, hlr⟩ := hnd
    have hndl : l.addrs.Nodup := (List.nodup_append.mp hlr).1
    have hndr : r.addrs.Nodup := (List.nodup_append.mp hlr).2.1
    have hdisj := (List.nodup_append.mp hlr).2.2
    have hl := ihl hndl (fun b hb => hne b (by simp [Tree.addrs, hb]))
    have hr := ihr hndr (fun b hb => hne b (by simp [Tree.addrs, hb]))
    refine ⟨hne a (by simp [Tree.addrs]), by simp [Tree.asHeap], ?_, ?_⟩
    · apply Tree.inMem_congr l.asHeap _ l _ hl
      intro b hb
      have hba : b ≠ a := fun e => hal (e ▸ hb)
      obtain ⟨_, n, hn⟩ := mem_of_mem_addrs l.asHeap l hl b hb
      simp [Tree.asHeap, hba, hn]
    · apply Tree.inMem_congr r.asHeap _ r _ hr
      intro b hb
      have hba : b ≠ a := fun e => har (e ▸ hb)
      have hbl : b ∉ l.addrs := fun h => hdisj h hb
      simp [Tree.asHeap, hba, Tree.asHeap_none l b hbl]

theorem Tree.number_inMem (t : Tree) : (t.number 1).inMem (t.number 1).asHeap := by
  apply Tree.inMem_asHeap _ (Tree.number_nodup t 1)
  intro a ha
  rw [Tree.number_addrs] at ha
  have h1 : 1 ≤ a := (List.mem_range'_1.mp ha).1
  exact Nat.ne_of_gt h1

/-! ## The same calls, path by path -/

theorem renameId_idOf (f : Ptr → Ptr) (a : Ptr) : renameId f (idOf a) = idOf (f a) := by
  simp only [renameId, idOf, reinterpret_cast, readDecimal_to_string]

theorem Tree.mapAddr_root (f : Ptr → Ptr) (u : Tree) (h : u.root ≠ nullptr) :
    (u.mapAddr f).root = f u.root := by
  cases u with
  | nil => exact absurd rfl h
  | node a v l r => rfl

theorem Tree.mapAddr_root_null (mem memT : Heap) (f : Ptr → Ptr) (u : Tree)
    (hu : u.inMem memT) (hm : (u.mapAddr f).inMem mem) :
    (u.mapAddr f).root = nullptr ↔ u.root = nullptr := by
  cases u with
  | nil => simp [Tree.mapAddr]
  | node a v l r =>
    simp only [Tree.mapAddr, Tree.root_node]
    exact ⟨fun h => absurd h hm.1, fun h => absurd h hu.1⟩

theorem opsOf_mapAddr (mem memT : Heap) (f : Ptr → Ptr) : ∀ (u : Tree), u.inMem memT →
    (u.mapAddr f).inMem mem →
    opsOf (u.mapAddr f) = (opsOf u).map (Call.rename (renameId f)) := by
  intro u
  induction u with
  | nil => intro _ _; rfl
  | node a v l r ihl ihr =>
    intro hu hm
    obtain ⟨_, _, hul, hur⟩ := hu
    obtain ⟨_, _, hml, hmr⟩ := hm
    have el : (if (l.mapAddr f).root = nullptr then []
        else [Call.agnode (idOf (l.mapAddr f).root), Call.agedge (idOf (f a))
          (idOf (l.mapAddr f).root)] ++ opsOf (l.mapAddr f)) =
        (if l.root = nullptr then []
        else [Call.agnode (idOf l.root), Call.agedge (idOf a) (idOf l.root)] ++ opsOf l).map
          (Call.rename (renameId f)) := by
      by_cases h1 : l.root = nullptr
      · rw [if_pos h1, if_pos ((Tree.mapAddr_root_null mem memT f l hul hml).mpr h1)]; rfl
      · rw [if_neg h1, if_neg (fun h => h1 ((Tree.mapAddr_root_null mem memT f l hul hml).mp h)),
          Tree.mapAddr_root f l h1, ihl hul hml]
        simp [Call.rename, renameId_idOf]
    have er : (if (r.mapAddr f).root = nullptr then []
        else [Call.agnode (idOf (r.mapAddr f).root), Call.agedge (idOf (f a))
          (idOf (r.mapAddr f).root)] ++ opsOf (r.mapAddr f)) =
        (if r.root = nullptr then []
        else [Call.agnode (idOf r.root), Call.agedge (idOf a) (idOf r.root)] ++ opsOf r).map
          (Call.rename (renameId f)) := by
      by_cases h1 : r.root = nullptr
      · rw [if_pos h1, if_pos ((Tree.mapAddr_root_null mem memT f r hur hmr).mpr h1)]; rfl
      · rw [if_neg h1, if_neg (fun h => h1 ((Tree.mapAddr_root_null mem memT f r hur hmr).mp h)),
          Tree.mapAddr_root f r h1, ihr hur hmr]
        simp [Call.rename, renameId_idOf]
    simp only [Tree.mapAddr, opsOf, el, er, List.map_append, List.map_cons, List.map_nil,
      Call.rename, renameId_idOf]
/-! ## Root paths -/

theorem rootPaths_eq (mem : Heap) : ∀ (t : Tree) (fuel : Nat), t.inMem mem → t.height ≤ fuel →
    rootPaths mem fuel t.root = t.paths := by
  intro t
  induction t with
  | nil =>
    intro fuel _ _
    cases fuel <;> simp [rootPaths, Tree.paths]
  | node a v l r ihl ihr =>
    intro fuel hin hf
    obtain ⟨ha, hm, hl, hr⟩ := hin
    cases fuel with
    | zero => simp [Tree.height] at hf
    | succ f =>
      have hlh : l.height ≤ f := by simp [Tree.height] at hf; omega
      have hrh : r.height ≤ f := by simp [Tree.height] at hf; omega
      simp only [Tree.root_node, rootPaths, if_neg ha, hm, ihl f hl hlh, ihr f hr hrh,
        Tree.paths]

theorem Tree.paths_length : ∀ (t : Tree), t.paths.length = t.addrs.length := by
  intro t
  induction t with
  | nil => rfl
  | node a v l r ihl ihr => simp [Tree.paths, Tree.addrs, ihl, ihr]

theorem Tree.paths_nonempty_count : ∀ (t : Tree),
    t.paths.countP (fun ds => decide (ds ≠ [])) = t.addrs.length - 1 := by
  intro t
  cases t with
  | nil => rfl
  | node a v l r =>
    simp only [Tree.paths, Tree.addrs, List.countP_cons, List.countP_append, List.countP_map,
      List.length_cons, List.length_append]
    have h1 : ∀ (b : Bool) (ps : List (List Bool)),
        List.countP ((fun ds => decide (ds ≠ [])) ∘ fun ds => b :: ds) ps = ps.length := by
      intro b ps
      rw [List.countP_eq_length]
      intro p _
      simp
    rw [h1, h1, Tree.paths_length, Tree.paths_length]
    simp

theorem Tree.paths_nodup : ∀ (t : Tree), t.paths.Nodup := by
  intro t
  induction t with
  | nil => exact List.nodup_nil
  | node a v l r ihl ihr =>
    simp only [Tree.paths, List.nodup_cons, List.mem_append, List.mem_map, not_or, not_exists,
      not_and]
    refine ⟨⟨fun _ _ h => List.cons_ne_nil _ _ h, fun _ _ h => List.cons_ne_nil _ _ h⟩, ?_⟩
    rw [List.nodup_append]
    refine ⟨ihl.map (fun x y h => (List.cons.inj h).2), ihr.map (fun x y h => (List.cons.inj h).2),
      ?_⟩
    intro p hp1 hp2
    obtain ⟨x, _, rfl⟩ := List.mem_map.mp hp1
    obtain ⟨y, _, h⟩ := List.mem_map.mp hp2
    simp at h

theorem follow_null (mem : Heap) : ∀ (path : List Bool), follow mem nullptr path = nullptr := by
  intro path
  cases path <;> simp [follow]

theorem mem_paths_iff (mem : Heap) : ∀ (t : Tree), t.inMem mem → ∀ (path : List Bool),
    path ∈ t.paths ↔ follow mem t.root path ≠ nullptr := by
  intro t
  induction t with
  | nil => intro _ path; simp [Tree.paths, follow_null]
  | node a v l r ihl ihr =>
    intro hin path
    obtain ⟨ha, hm, hl, hr⟩ := hin
    cases path with
    | nil => simp [Tree.paths, follow, ha]
    | cons d ds =>
      cases d with
      | false => simp [Tree.paths, follow, ha, hm, ← ihl hl ds]
      | true => simp [Tree.paths, follow, ha, hm, ← ihr hr ds]

theorem opsOf_count_agset (mem : Heap) : ∀ (t : Tree), t.inMem mem →
    (opsOf t).countP Call.isAgset = t.addrs.length := by
  intro t
  induction t with
  | nil => intro _; rfl
  | node a v l r ihl ihr =>
    intro hin
    obtain ⟨_, _, hl, hr⟩ := hin
    have el : (if l.root = nullptr then []
        else [Call.agnode (idOf l.root), Call.agedge (idOf a) (idOf l.root)] ++ opsOf l).countP
          Call.isAgset = l.addrs.length := by
      by_cases h1 : l.root = nullptr
      · rw [if_pos h1, Tree.eq_nil_of_root mem l hl h1]; rfl
      · rw [if_neg h1]; simp [List.countP_cons, Call.isAgset, ihl hl]
    have er : (if r.root = nullptr then []
        else [Call.agnode (idOf r.root), Call.agedge (idOf a) (idOf r.root)] ++ opsOf r).countP
          Call.isAgset = r.addrs.length := by
      by_cases h1 : r.root = nullptr
      · rw [if_pos h1, Tree.eq_nil_of_root mem r hr h1]; rfl
      · rw [if_neg h1]; simp [List.countP_cons, Call.isAgset, ihr hr]
    simp only [opsOf, List.countP_append, el, er, Tree.addrs, List.length_cons,
      List.length_append]
    simp [List.countP_cons, Call.isAgset]
    omega

theorem opsOf_count_agedge (mem : Heap) : ∀ (t : Tree), t.inMem mem →
    (opsOf t).countP Call.isAgedge = t.addrs.length - 1 := by
  intro t
  induction t with
  | nil => intro _; rfl
  | node a v l r ihl ihr =>
    intro hin
    obtain ⟨_, _, hl, hr⟩ := hin
    have el : (if l.root = nullptr then []
        else [Call.agnode (idOf l.root), Call.agedge (idOf a) (idOf l.root)] ++ opsOf l).countP
          Call.isAgedge = l.addrs.length := by
      by_cases h1 : l.root = nullptr
      · rw [if_pos h1, Tree.eq_nil_of_root mem l hl h1]; rfl
      · rw [if_neg h1]
        have := Tree.addrs_eq_cons l h1
        have hlen : l.addrs.length = l.addrs.tail.length + 1 := by
          conv_lhs => rw [this]
          simp
        simp [List.countP_cons, Call.isAgedge, ihl hl]
        omega
    have er : (if r.root = nullptr then []
        else [Call.agnode (idOf r.root), Call.agedge (idOf a) (idOf r.root)] ++ opsOf r).countP
          Call.isAgedge = r.addrs.length := by
      by_cases h1 : r.root = nullptr
      · rw [if_pos h1, Tree.eq_nil_of_root mem r hr h1]; rfl
      · rw [if_neg h1]
        have := Tree.addrs_eq_cons r h1
        have hlen : r.addrs.length = r.addrs.tail.length + 1 := by
          conv_lhs => rw [this]
          simp
        simp [List.countP_cons, Call.isAgedge, ihr hr]
        omega
    simp only [opsOf, List.countP_append, el, er, Tree.addrs, List.length_cons,
      List.length_append]
    simp [List.countP_cons, Call.isAgedge]

/-- C14: on a finite acyclic structure, shared nodes included, the builder
makes the calls it makes on the tree unfolding of the structure, laid out as a
tree of its own with one node per root path, once the identifier of every copy
is replaced by that of its original (labels are the same); it adds one edge per
non-empty root path of the structure and sets one label per root path. -/
theorem per_path_traversal (mem : Heap) (t : Tree) (fuel : Nat)
    (hin : t.inMem mem) (hf : t.height ≤ fuel) :
    (t.number 1).addrs.Nodup ∧ (t.number 1).inMem (t.number 1).asHeap ∧
    (t.number 1).mapAddr (originalOf t) = t ∧
    (∀ path, path ∈ rootPaths mem fuel t.root ↔ follow mem t.root path ≠ nullptr) ∧
    (rootPaths mem fuel t.root).Nodup ∧
    ∃ gD gT, _visualize mem fuel emptyGv t.root = Except.ok gD ∧
      _visualize (t.number 1).asHeap fuel emptyGv (t.number 1).root = Except.ok gT ∧
      gD.calls = gT.calls.map (Call.rename (renameId (originalOf t))) ∧
      gD.calls.countP Call.isAgedge =
        (rootPaths mem fuel t.root).countP (fun ds => decide (ds ≠ [])) ∧
      gD.calls.countP Call.isAgset = (rootPaths mem fuel t.root).length := by
  have hT := Tree.number_inMem t
  have hmap := Tree.mapAddr_original t
  have hpaths := rootPaths_eq mem t fuel hin hf
  have hcD : (build t emptyGv).calls = opsOf t := by rw [build_calls]; simp [emptyGv]
  have hcT : (build (t.number 1) emptyGv).calls = opsOf (t.number 1) := by
    rw [build_calls]; simp [emptyGv]
  refine ⟨Tree.number_nodup t 1, hT, hmap, ?_, ?_, build t emptyGv, build (t.number 1) emptyGv,
    run_ok mem t fuel _ hin hf,
    run_ok _ (t.number 1) fuel _ hT (by rw [Tree.number_height]; exact hf), ?_, ?_, ?_⟩
  · intro path; rw [hpaths]; exact mem_paths_iff mem t hin path
  · rw [hpaths]; exact Tree.paths_nodup t
  · rw [hcD, hcT, ← opsOf_mapAddr mem (t.number 1).asHeap (originalOf t) (t.number 1) hT
      (by rw [hmap]; exact hin), hmap]
  · rw [hcD, hpaths, opsOf_count_agedge mem t hin, Tree.paths_nonempty_count]
  · rw [hcD, hpaths, opsOf_count_agset mem t hin, Tree.paths_length]

/-- C14, at the structure with the shared node 64 and its child 80: the tree
unfolding has seven nodes, and the builder sets seven labels and adds six
edges for the five nodes and five links of the structure. -/
theorem per_path_traversal_witness :
    sharedTree.inMem sharedHeap ∧ sharedTree.height ≤ 4 ∧
    sharedTree.number 1 = sharedAsTree ∧
    ∃ gD gT, _visualize sharedHeap 4 emptyGv 16 = Except.ok gD ∧
      _visualize sharedAsTree.asHeap 4 emptyGv 1 = Except.ok gT ∧
      gD.calls = gT.calls.map (Call.rename (renameId (originalOf sharedTree))) ∧
      gD.calls.countP Call.isAgedge = 6 ∧ gD.calls.countP Call.isAgset = 7 := by
  refine ⟨by simp [sharedTree, Tree.inMem, sharedHeap, nullptr], by decide, by decide, ?_⟩
  obtain ⟨_, _, _, _, _, gD, gT, h1, h2, h3, h4, h5⟩ := per_path_traversal sharedHeap sharedTree 4
    (by simp [sharedTree, Tree.inMem, sharedHeap, nullptr]) (by decide)
  refine ⟨gD, gT, h1, h2, h3, ?_, ?_⟩
  · rw [h4]; decide
  · rw [h5]; decide


/-! ## Address independence -/

theorem Tree.mapAddr_pairs (f : Ptr → Ptr) : ∀ (t : Tree),
    (t.mapAddr f).pairs = t.pairs.map fun av => (f av.1, av.2) := by
  intro t
  induction t with
  | nil => rfl
  | node a v l r ihl ihr => simp [Tree.mapAddr, Tree.pairs, ihl, ihr]

theorem edgesOf_mapAddr (mem memT : Heap) (f : Ptr → Ptr) : ∀ (u : Tree), u.inMem memT →
    (u.mapAddr f).inMem mem →
    edgesOf (u.mapAddr f) =
      (edgesOf u).map fun e => (renameId f e.1, renameId f e.2) := by
  intro u
  induction u with
  | nil => intro _ _; rfl
  | node a v l r ihl ihr =>
    intro hu hm
    obtain ⟨_, _, hul, hur⟩ := hu
    obtain ⟨_, _, hml, hmr⟩ := hm
    have el : (if (l.mapAddr f).root = nullptr then []
        else (idOf (f a), idOf (l.mapAddr f).root) :: edgesOf (l.mapAddr f)) =
        (if l.root = nullptr then [] else (idOf a, idOf l.root) :: edgesOf l).map
          fun e => (renameId f e.1, renameId f e.2) := by
      by_cases h1 : l.root = nullptr
      · rw [if_pos h1, if_pos ((Tree.mapAddr_root_null mem memT f l hul hml).mpr h1)]; rfl
      · rw [if_neg h1, if_neg (fun h => h1 ((Tree.mapAddr_root_null mem memT f l hul hml).mp h)),
          Tree.mapAddr_root f l h1, ihl hul hml]
        simp [renameId_idOf]
    have er : (if (r.mapAddr f).root = nullptr then []
        else (idOf (f a), idOf (r.mapAddr f).root) :: edgesOf (r.mapAddr f)) =
        (if r.root = nullptr then [] else (idOf a, idOf r.root) :: edgesOf r).map
          fun e => (renameId f e.1, renameId f e.2) := by
      by_cases h1 : r.root = nullptr
      · rw [if_pos h1, if_pos ((Tree.mapAddr_root_null mem memT f r hur hmr).mpr h1)]; rfl
      · rw [if_neg h1, if_neg (fun h => h1 ((Tree.mapAddr_root_null mem memT f r hur hmr).mp h)),
          Tree.mapAddr_root f r h1, ihr hur hmr]
        simp [renameId_idOf]
    simp only [Tree.mapAddr, edgesOf, el, er, List.map_append]

theorem Tree.mapAddr_height (f : Ptr → Ptr) : ∀ (t : Tree), (t.mapAddr f).height = t.height := by
  intro t
  induction t with
  | nil => rfl
  | node a v l r ihl ihr => simp [Tree.mapAddr, Tree.height, ihl, ihr]

/-- C15: when the nodes of a tree are placed at other addresses, injectively,
the builder produces the same graph up to the renaming of `id(a)` into
`id(f a)`: the graph-nodes in creation order with their labels, and the edge
list in order, of the second run are those of the first run renamed. -/
theorem address_independence (mem1 mem2 : Heap) (t : Tree) (f : Ptr → Ptr) (fuel : Nat)
    (hin1 : t.inMem mem1) (hnd1 : t.addrs.Nodup)
    (hin2 : (t.mapAddr f).inMem mem2) (hnd2 : (t.mapAddr f).addrs.Nodup)
    (hf : t.height ≤ fuel) :
    (∀ a, renameId f (idOf a) = idOf (f a)) ∧
    ∃ g1 g2, _visualize mem1 fuel emptyGv t.root = Except.ok g1 ∧
      _visualize mem2 fuel emptyGv (t.mapAddr f).root = Except.ok g2 ∧
      g2.names = g1.names.map (renameId f) ∧
      g2.graph.nodes = g1.graph.nodes.map (Agnode.rename (renameId f)) ∧
      g2.graph.edges = g1.graph.edges.map fun e => (renameId f e.1, renameId f e.2) := by
  have hn1 := build_tree_nodes mem1 t hin1 hnd1 emptyGv rfl
  have hn2 := build_tree_nodes mem2 (t.mapAddr f) hin2 hnd2 emptyGv rfl
  have hnodes : (build (t.mapAddr f) emptyGv).graph.nodes =
      (build t emptyGv).graph.nodes.map (Agnode.rename (renameId f)) := by
    rw [hn1, hn2, Tree.mapAddr_pairs, List.map_map, List.map_map]
    apply List.map_congr_left
    intro av _
    simp [graphNode, Agnode.rename, renameId_idOf]
  refine ⟨renameId_idOf f, build t emptyGv, build (t.mapAddr f) emptyGv,
    run_ok mem1 t fuel _ hin1 hf,
    run_ok mem2 _ fuel _ hin2 (by rw [Tree.mapAddr_height]; exact hf), ?_, hnodes, ?_⟩
  · simp only [Gv.names, hnodes, List.map_map]
    rfl
  · rw [build_edges, build_edges, edgesOf_mapAddr mem2 mem1 f t hin1 hin2]
    simp [emptyGv]

/-- C15, at the test tree and its copy at the addresses `1000 - a`, whose
order is the reverse. -/
theorem address_independence_witness :
    testTree.inMem testHeap ∧ testTree.addrs.Nodup ∧
    (testTree.mapAddr mirrorAddr).inMem (testTree.mapAddr mirrorAddr).asHeap ∧
    (testTree.mapAddr mirrorAddr).addrs.Nodup ∧ testTree.height ≤ 3 ∧
    ∃ g1 g2, _visualize testHeap 3 emptyGv 16 = Except.ok g1 ∧
      _visualize (testTree.mapAddr mirrorAddr).asHeap 3 emptyGv 984 = Except.ok g2 ∧
      g2.names = g1.names.map (renameId mirrorAddr) ∧
      g2.graph.nodes = g1.graph.nodes.map (Agnode.rename (renameId mirrorAddr)) ∧
      g2.graph.edges =
        g1.graph.edges.map fun e => (renameId mirrorAddr e.1, renameId mirrorAddr e.2) := by
  have h1 : testTree.inMem testHeap := by simp [testTree, Tree.inMem, testHeap, nullptr]
  have h2 : (testTree.mapAddr mirrorAddr).inMem (testTree.mapAddr mirrorAddr).asHeap :=
    Tree.inMem_asHeap _ (by decide) (by decide)
  exact ⟨h1, by decide, h2, by decide, by decide,
    (address_independence testHeap (testTree.mapAddr mirrorAddr).asHeap testTree mirrorAddr 3
      h1 (by decide) h2 (by decide) (by decide)).2⟩


/-! ## Well-formedness of the graph -/

theorem EdgePath.mono (es es2 : List (String × String)) (h : ∀ e ∈ es, e ∈ es2) (x y : String)
    (p : EdgePath es x y) : EdgePath es2 x y := by
  induction p with
  | refl => exact EdgePath.refl _
  | step y z _ hyz ih => exact EdgePath.step _ y z ih (h _ hyz)

theorem EdgePath.trans (es : List (String × String)) (x y z : String)
    (p : EdgePath es x y) (q : EdgePath es y z) : EdgePath es x z := by
  induction q with
  | refl => exact p
  | step y2 z2 _ hyz ih => exact EdgePath.step _ y2 z2 ih hyz

theorem edgePath_of_mem (mem : Heap) : ∀ (t : Tree), t.inMem mem → ∀ a ∈ t.addrs,
    EdgePath (edgesOf t) (idOf t.root) (idOf a) := by
  intro t
  induction t with
  | nil => intro _ a ha; simp [Tree.addrs] at ha
  | node a v l r ihl ihr =>
    intro hin b hb
    obtain ⟨_, _, hl, hr⟩ := hin
    simp only [Tree.addrs, List.mem_cons, List.mem_append] at hb
    rcases hb with rfl | hb | hb
    · exact EdgePath.refl _
    · have h1 : l.root ≠ nullptr := by
        intro h0
        rw [Tree.eq_nil_of_root mem l hl h0] at hb
        simp [Tree.addrs] at hb
      have hsub : ∀ e ∈ edgesOf l, e ∈ edgesOf (Tree.node a v l r) := by
        intro e he
        simp [edgesOf, h1, he]
      have hedge : (idOf a, idOf l.root) ∈ edgesOf (Tree.node a v l r) := by
        simp [edgesOf, h1]
      exact EdgePath.trans _ _ _ _ (EdgePath.step _ _ _ (EdgePath.refl _) hedge)
        (EdgePath.mono _ _ hsub _ _ (ihl hl b hb))
    · have h1 : r.root ≠ nullptr := by
        intro h0
        rw [Tree.eq_nil_of_root mem r hr h0] at hb
        simp [Tree.addrs] at hb
      have hsub : ∀ e ∈ edgesOf r, e ∈ edgesOf (Tree.node a v l r) := by
        intro e he
        simp [edgesOf, h1, he]
      have hedge : (idOf a, idOf r.root) ∈ edgesOf (Tree.node a v l r) := by
        simp [edgesOf, h1]
      exact EdgePath.trans _ _ _ _ (EdgePath.step _ _ _ (EdgePath.refl _) hedge)
        (EdgePath.mono _ _ hsub _ _ (ihr hr b hb))

theorem countP_head_eq (x : String) : ∀ (es : List (String × String)),
    es.countP (fun e => decide (e.2 = x)) = (es.map Prod.snd).count x := by
  intro es
  induction es with
  | nil => rfl
  | cons e es ih =>
    simp only [List.countP_cons, List.map_cons, List.count_cons, ih, beq_iff_eq,
      decide_eq_true_eq]

/-- C16: after the builder has run from an empty graph on a finite acyclic
left/right structure with a non-null root, both ends of every edge are
graph-nodes of the graph; every graph-node but the root's is the head of an edge and is reached
from the root's along the edges; and in a tree the root's graph-node has no
incoming edge and every other graph-node has exactly one. -/
theorem graph_well_formed (mem : Heap) (t : Tree) (fuel : Nat)
    (hin : t.inMem mem) (hf : t.height ≤ fuel) (hroot : t.root ≠ nullptr) :
    ∃ g, _visualize mem fuel emptyGv t.root = Except.ok g ∧
      idOf t.root ∈ g.names ∧
      (∀ e ∈ g.graph.edges, e.1 ∈ g.names ∧ e.2 ∈ g.names) ∧
      (∀ x ∈ g.names, x ≠ idOf t.root →
        (∃ e ∈ g.graph.edges, e.2 = x) ∧ EdgePath g.graph.edges (idOf t.root) x) ∧
      (t.addrs.Nodup →
        (∀ e ∈ g.graph.edges, e.2 ≠ idOf t.root) ∧
        ∀ x ∈ g.names, x ≠ idOf t.root →
          g.graph.edges.countP (fun e => decide (e.2 = x)) = 1) := by
  have hedges : (build t emptyGv).graph.edges = edgesOf t := by
    rw [build_edges]; simp [emptyGv]
  have hnames : ∀ x, x ∈ (build t emptyGv).names ↔ x ∈ t.addrs.map idOf := by
    intro x
    rw [mem_build_names mem t hin]
    simp [emptyGv, Gv.names]
  have hheads := edgesOf_heads mem t hin
  have hcons := Tree.addrs_eq_cons t hroot
  have htail : ∀ x ∈ t.addrs.map idOf, x ≠ idOf t.root → x ∈ t.addrs.tail.map idOf := by
    intro x hx hne
    obtain ⟨a, ha, rfl⟩ := List.mem_map.mp hx
    rw [hcons, List.mem_cons] at ha
    rcases ha with rfl | ha
    · exact absurd rfl hne
    · exact List.mem_map_of_mem idOf ha
  refine ⟨build t emptyGv, run_ok mem t fuel _ hin hf, ?_, ?_, ?_, ?_⟩
  · rw [hnames]; exact List.mem_map_of_mem idOf (Tree.root_mem_addrs t hroot)
  · intro e he
    rw [hedges] at he
    rw [hnames, hnames]
    constructor
    · obtain ⟨p, c, hp, _, rfl⟩ := (mem_edgesOf mem t hin e).mp he
      exact List.mem_map_of_mem idOf hp
    · have h2 : e.2 ∈ (edgesOf t).map Prod.snd := List.mem_map_of_mem Prod.snd he
      rw [hheads] at h2
      obtain ⟨a, ha, h⟩ := List.mem_map.mp h2
      exact List.mem_map.mpr ⟨a, List.mem_of_mem_tail ha, h⟩
  · intro x hx hne
    rw [hnames] at hx
    rw [hedges]
    constructor
    · have h2 := htail x hx hne
      rw [← hheads] at h2
      obtain ⟨e, he, h⟩ := List.mem_map.mp h2
      exact ⟨e, he, h⟩
    · obtain ⟨a, ha, rfl⟩ := List.mem_map.mp hx
      exact edgePath_of_mem mem t hin a ha
  · intro hnd
    have hndt : (t.addrs.tail.map idOf).Nodup :=
      (hnd.sublist (List.tail_sublist _)).map idOf_injective
    have hnotin : t.root ∉ t.addrs.tail := by
      rw [hcons] at hnd
      exact (List.nodup_cons.mp hnd).1
    rw [hedges]
    constructor
    · intro e he h
      have h2 : e.2 ∈ (edgesOf t).map Prod.snd := List.mem_map_of_mem Prod.snd he
      rw [hheads, h] at h2
      obtain ⟨a, ha, h3⟩ := List.mem_map.mp h2
      exact hnotin (idOf_injective h3 ▸ ha)
    · intro x hx hne
      rw [hnames] at hx
      rw [countP_head_eq, hheads]
      exact List.count_eq_one_of_mem hndt (htail x hx hne)

/-- C16, at the test tree (no shared subtrees) with its root at 16. -/
theorem graph_well_formed_witness :
    testTree.inMem testHeap ∧ testTree.height ≤ 3 ∧ testTree.root ≠ nullptr ∧
    testTree.addrs.Nodup ∧
    ∃ g, _visualize testHeap 3 emptyGv 16 = Except.ok g ∧
      idOf 16 ∈ g.names ∧
      (∀ e ∈ g.graph.edges, e.1 ∈ g.names ∧ e.2 ∈ g.names) ∧
      (∀ x ∈ g.names, x ≠ idOf 16 →
        (∃ e ∈ g.graph.edges, e.2 = x) ∧ EdgePath g.graph.edges (idOf 16) x) ∧
      (∀ e ∈ g.graph.edges, e.2 ≠ idOf 16) ∧
      ∀ x ∈ g.names, x ≠ idOf 16 →
        g.graph.edges.countP (fun e => decide (e.2 = x)) = 1 := by
  have h1 : testTree.inMem testHeap := by simp [testTree, Tree.inMem, testHeap, nullptr]
  obtain ⟨g, hg, h2, h3, h4, h5⟩ := graph_well_formed testHeap testTree 3 h1 (by decide)
    (by decide)
  exact ⟨h1, by decide, by decide, by decide, g, hg, h2, h3, h4, (h5 (by decide)).1,
    (h5 (by decide)).2⟩


end TreeVisualizer
